import Mathlib

/-!
Verification development for the long-view document plugin
(structural parser, pagination engine, fragment tokenizer).

Strings are modelled as `List Char`; all functions are shallow embeddings of
the TypeScript sources in `src/`.  JavaScript regular expressions are
translated into explicit deterministic scanners; where a regex uses lazy
quantifiers or alternation, the scanner implements the backtracking
semantics directly (documented at each definition).  Character classes use
the ASCII subset of the JS classes (`\s`, `\w`, …); the documents in all
claims are ASCII.
-/

namespace LongView

/-- ASCII subset of the JavaScript `\s` whitespace class. -/
def isWs (c : Char) : Bool :=
  c = ' ' || c = '\t' || c = '\n' || c = '\r' || c = '\x0b' || c = '\x0c'

/-- JavaScript `\w` class: letters, digits, underscore. -/
def isWordChar (c : Char) : Bool :=
  ('a' ≤ c && c ≤ 'z') || ('A' ≤ c && c ≤ 'Z') || ('0' ≤ c && c ≤ '9') || c = '_'

/-- ASCII letter, the class `[A-Za-z]`. -/
def isLetter (c : Char) : Bool :=
  ('a' ≤ c && c ≤ 'z') || ('A' ≤ c && c ≤ 'Z')

/-- The class `[A-Za-z0-9_-]` used by the flag-type identifier. -/
def isFlagIdChar (c : Char) : Bool :=
  isWordChar c || c = '-'

/-- JavaScript `s.substring(a, b)` for `a ≤ b` (the sources only call it that
way): the slice of `s` from index `a` (inclusive) to `b` (exclusive),
clamped to the length. -/
def sliceL (s : List Char) (a b : Nat) : List Char :=
  (s.drop a).take (b - a)

/-- JavaScript `String.prototype.trim` (ASCII whitespace). -/
def trimL (s : List Char) : List Char :=
  ((s.dropWhile isWs).reverse.dropWhile isWs).reverse

/-! ### The word scanner

`wordMatches` is the embedding of `Array.from(text.matchAll(/\S+/g))`: the
list of `(index, word)` pairs of the maximal runs of non-whitespace
characters.  The definition is structurally recursive (a character is merged
into the following word exactly when that word starts at the very next
position), which coincides with the left-to-right scanner of the regex. -/

def wmAux : List Char → Nat → List (Nat × List Char)
  | [], _ => []
  | c :: rest, pos =>
    if isWs c then wmAux rest (pos + 1)
    else
      match wmAux rest (pos + 1) with
      | (q, w) :: ms =>
        if q = pos + 1 then (pos, c :: w) :: ms else (pos, [c]) :: (q, w) :: ms
      | [] => [(pos, [c])]

def wordMatches (s : List Char) : List (Nat × List Char) :=
  wmAux s 0

/-- Every match offset produced from position `pos` is at least `pos`. -/
theorem wmAux_offset_ge (s : List Char) (pos : Nat) :
    ∀ m ∈ wmAux s pos, pos ≤ m.1 := by
  induction s generalizing pos with
  | nil => intro m hm; simp [wmAux] at hm
  | cons c rest ih =>
    intro m hm
    by_cases hws : isWs c
    · simp only [wmAux, hws, if_pos] at hm
      exact Nat.le_of_succ_le (ih (pos + 1) m hm)
    · simp only [wmAux, hws, if_neg, Bool.false_eq_true, not_false_iff] at hm
      rcases hrec : wmAux rest (pos + 1) with - | ⟨⟨q, w⟩, ms⟩
      · rw [hrec] at hm
        simp at hm
        simp [hm]
      · rw [hrec] at hm
        by_cases hq : q = pos + 1
        · simp only [hq, if_pos rfl] at hm
          rcases List.mem_cons.mp hm with h | h
          · simp [h]
          · have := ih (pos + 1) m (by rw [hrec]; exact List.mem_cons_of_mem _ h)
            omega
        · simp only [if_neg hq] at hm
          rcases List.mem_cons.mp hm with h | h
          · simp [h]
          · have := ih (pos + 1) m (by rw [hrec]; exact h)
            omega

/-- Scanning an all-whitespace string yields no matches. -/
theorem wmAux_eq_nil (s : List Char) (pos : Nat) (h : ∀ c ∈ s, isWs c = true) :
    wmAux s pos = [] := by
  induction s generalizing pos with
  | nil => rfl
  | cons c rest ih =>
    have hc : isWs c = true := h c (List.mem_cons_self c rest)
    simp only [wmAux, hc, if_pos]
    exact ih (pos + 1) fun x hx => h x (List.mem_cons_of_mem _ hx)

/-- Prepending a whitespace prefix shifts the scan position. -/
theorem wmAux_ws_append (u v : List Char) (pos : Nat) (hu : ∀ c ∈ u, isWs c = true) :
    wmAux (u ++ v) pos = wmAux v (pos + u.length) := by
  induction u generalizing pos with
  | nil => simp
  | cons c u' ih =>
    have hc : isWs c = true := hu c (List.mem_cons_self c u')
    have hstep : wmAux (c :: u' ++ v) pos = wmAux (u' ++ v) (pos + 1) := by
      simp [wmAux, hc]
    rw [hstep, ih (pos + 1) fun x hx => hu x (List.mem_cons_of_mem _ hx)]
    congr 1
    simp only [List.length_cons]
    omega

/-- Scanning a nonempty non-whitespace word followed by a string that is
empty or starts with whitespace yields that word and continues after it. -/
theorem wmAux_word_append (w v : List Char) (pos : Nat) (hw : w ≠ [])
    (hnw : ∀ c ∈ w, isWs c = false)
    (hv : v = [] ∨ isWs v.headI = true) :
    wmAux (w ++ v) pos = (pos, w) :: wmAux v (pos + w.length) := by
  induction w generalizing pos with
  | nil => exact absurd rfl hw
  | cons c w' ih =>
    have hc : isWs c = false := hnw c (List.mem_cons_self c w')
    have hstep : ∀ u : List Char, wmAux (c :: u) pos =
        (match wmAux u (pos + 1) with
         | (q, x) :: ms =>
           if q = pos + 1 then (pos, c :: x) :: ms else (pos, [c]) :: (q, x) :: ms
         | [] => [(pos, [c])]) := by
      intro u
      simp [wmAux, hc]
    rcases eq_or_ne w' [] with hw' | hw'
    · subst hw'
      have hnext : ∀ m ∈ wmAux v (pos + 1), pos + 1 + 1 ≤ m.1 := by
        intro m hm
        rcases hv with hv | hv
        · subst hv; simp [wmAux] at hm
        · rcases hveq : v with - | ⟨d, t⟩
          · rw [hveq] at hm; simp [wmAux] at hm
          · have hd : isWs d = true := by rw [hveq] at hv; simpa using hv
            rw [hveq] at hm
            simp only [wmAux, hd, if_pos] at hm
            exact wmAux_offset_ge t (pos + 1 + 1) m hm
      have hgoal : wmAux ([c] ++ v) pos = wmAux (c :: v) pos := rfl
      rw [hgoal, hstep v]
      rcases hrec : wmAux v (pos + 1) with - | ⟨⟨q, x⟩, ms⟩
      · simp [hrec]
      · have hq : pos + 1 + 1 ≤ q := by
          have := hnext (q, x) (by rw [hrec]; exact List.mem_cons_self _ _)
          simpa using this
        have hqne : ¬ q = pos + 1 := by omega
        simp [if_neg hqne, hrec]
    · have hsplit : c :: w' ++ v = c :: (w' ++ v) := rfl
      rw [hsplit, hstep (w' ++ v),
        ih (pos + 1) hw' (fun x hx => hnw x (List.mem_cons_of_mem _ hx))]
      simp only [if_pos rfl, List.length_cons, if_true]
      have harith : pos + 1 + w'.length = pos + (w'.length + 1) := by omega
      rw [harith]

/-- A string whose scan is empty is all whitespace. -/
theorem wmAux_nil_all_ws (s : List Char) (pos : Nat) (h : wmAux s pos = []) :
    ∀ c ∈ s, isWs c = true := by
  induction s generalizing pos with
  | nil => intro c hc; simp at hc
  | cons c cs ih =>
    intro x hx
    by_cases hc : isWs c
    · rcases List.mem_cons.mp hx with hx | hx
      · subst hx; exact hc
      · simp only [wmAux, hc, if_pos] at h
        exact ih (pos + 1) h x hx
    · simp only [wmAux, hc, Bool.false_eq_true, if_neg, not_false_iff] at h
      rcases hrec : wmAux cs (pos + 1) with - | ⟨⟨a, b⟩, l⟩
      · rw [hrec] at h; simp at h
      · rw [hrec] at h
        by_cases hq : a = pos + 1 <;> simp [hq] at h

/-- Decomposition of a successful scan: the scanned string splits into a
whitespace prefix, the first word, and a suffix that is empty or starts with
whitespace, and the scan of the suffix produces the remaining matches. -/
theorem wmAux_eq_cons (s : List Char) (pos q : Nat) (w : List Char)
    (rest : List (Nat × List Char)) (h : wmAux s pos = (q, w) :: rest) :
    ∃ pre suf, s = pre ++ w ++ suf ∧ (∀ c ∈ pre, isWs c = true) ∧
      q = pos + pre.length ∧ w ≠ [] ∧ (∀ c ∈ w, isWs c = false) ∧
      wmAux suf (q + w.length) = rest ∧ (suf = [] ∨ isWs suf.headI = true) := by
  induction s generalizing pos q w rest with
  | nil => simp [wmAux] at h
  | cons c cs ih =>
    by_cases hws : isWs c
    · simp only [wmAux, hws, if_pos] at h
      obtain ⟨pre, suf, hsplit, hpre, hq, hwne, hwnw, hsuf, hsufws⟩ := ih (pos + 1) q w rest h
      refine ⟨c :: pre, suf, by simp [hsplit], ?_, by simp; omega, hwne, hwnw, hsuf, hsufws⟩
      intro x hx
      rcases List.mem_cons.mp hx with hx | hx
      · subst hx; exact hws
      · exact hpre x hx
    · have hcf : isWs c = false := by simpa using hws
      simp only [wmAux, hcf, Bool.false_eq_true, if_neg, not_false_iff] at h
      split at h
      next q' w' ms hrec =>
        obtain ⟨pre', suf, hsplit, hpre', hq', hw'ne, hw'nw, hsuf, hsufws⟩ :=
          ih (pos + 1) q' w' ms hrec
        split at h
        next hq =>
          -- merge case: c extends the following word
          injection h with h1 h2
          injection h1 with h3 h4
          subst h3; subst h4; subst h2
          have hpre'nil : pre' = [] := by
            have : pre'.length = 0 := by omega
            exact List.eq_nil_of_length_eq_zero this
          subst hpre'nil
          simp only [List.nil_append] at hsplit
          refine ⟨[], suf, ?_, by simp, by simp, by simp, ?_, ?_, hsufws⟩
          · rw [hsplit]; simp
          · intro x hx
            rcases List.mem_cons.mp hx with hx | hx
            · subst hx; exact hcf
            · exact hw'nw x hx
          · simp only [List.length_cons]
            have harith : pos + (w'.length + 1) = q' + w'.length := by omega
            rw [harith]
            exact hsuf
        next hq =>
          -- no merge: c is a word of its own
          injection h with h1 h2
          injection h1 with h3 h4
          subst h3; subst h4; subst h2
          refine ⟨[], cs, by simp, by simp, by simp, by simp, ?_, ?_, ?_⟩
          · intro x hx
            rcases List.mem_cons.mp hx with hx | hx
            · subst hx; exact hcf
            · simp at hx
          · simpa using hrec
          · right
            -- pre' is nonempty since q' ≠ pos + 1
            rcases hpre : pre' with - | ⟨d, t⟩
            · rw [hpre] at hq'
              simp at hq'
              omega
            · have hd : isWs d = true := hpre' d (by rw [hpre]; exact List.mem_cons_self _ _)
              rw [hsplit, hpre]
              simpa [List.headI] using hd
      next hrec =>
        injection h with h1 h2
        injection h1 with h3 h4
        subst h3; subst h4; subst h2
        refine ⟨[], cs, by simp, by simp, by simp, by simp, ?_, ?_, ?_⟩
        · intro x hx
          rcases List.mem_cons.mp hx with hx | hx
          · subst hx; exact hcf
          · simp at hx
        · simp only [List.length_singleton]
          exact wmAux_eq_nil _ _ (wmAux_nil_all_ws cs (pos + 1) hrec)
        · rcases hcs : cs with - | ⟨d, t⟩
          · left; rfl
          · right
            have hd : isWs d = true :=
              wmAux_nil_all_ws cs (pos + 1) hrec d (by rw [hcs]; exact List.mem_cons_self _ _)
            simpa [List.headI] using hd

/-! ### Helper list lemmas -/

theorem getD_mem {α : Type} (l : List α) (n : Nat) (d : α) (h : n < l.length) :
    l.getD n d ∈ l := by
  induction l generalizing n with
  | nil => simp at h
  | cons x xs ih =>
    rcases n with - | n
    · simp
    · simp only [List.getD_cons_succ]
      exact List.mem_cons_of_mem _ (ih n (by simpa using h))

theorem getD_append_left {α : Type} (l₁ l₂ : List α) (n : Nat) (d : α) (h : n < l₁.length) :
    (l₁ ++ l₂).getD n d = l₁.getD n d := by
  induction l₁ generalizing n with
  | nil => simp at h
  | cons x xs ih =>
    rcases n with - | n
    · simp
    · simp only [List.cons_append, List.getD_cons_succ]
      exact ih n (by simpa using h)

theorem getD_append_shift {α : Type} (l₁ l₂ : List α) (n : Nat) (d : α) :
    (l₁ ++ l₂).getD (l₁.length + n) d = l₂.getD n d := by
  induction l₁ with
  | nil => simp
  | cons x xs ih =>
    simpa [List.cons_append, Nat.succ_add] using ih

theorem mem_take_getD {α : Type} (l : List α) (n : Nat) (d : α) (c : α) (h : c ∈ l.take n) :
    ∃ j, j < n ∧ j < l.length ∧ l.getD j d = c := by
  induction l generalizing n with
  | nil => simp at h
  | cons x xs ih =>
    rcases n with - | n
    · simp at h
    · simp only [List.take_succ_cons] at h
      rcases List.mem_cons.mp h with h | h
      · exact ⟨0, by omega, by simp, by simp [h]⟩
      · obtain ⟨j, hj1, hj2, hj3⟩ := ih n h
        exact ⟨j + 1, by omega, by simpa using hj2, by simpa using hj3⟩

/-- The first match starts exactly at the scan position iff the string's
first character is a non-whitespace character. -/
theorem wmAux_first_at_iff (cs : List Char) (p q : Nat) (x : List Char)
    (ms : List (Nat × List Char)) (h : wmAux cs p = (q, x) :: ms) :
    (q = p) ↔ isWs cs.headI = false := by
  obtain ⟨pre, suf, hsplit, hpre, hq, hwne, hwnw, -, -⟩ := wmAux_eq_cons cs p q x ms h
  constructor
  · intro hqp
    have hpre0 : pre = [] := by
      have : pre.length = 0 := by omega
      exact List.eq_nil_of_length_eq_zero this
    subst hpre0
    rw [hsplit]
    rcases x with - | ⟨a, t⟩
    · exact absurd rfl hwne
    · simpa [List.headI] using hwnw a (List.mem_cons_self _ _)
  · intro hhd
    rcases hprec : pre with - | ⟨d, t⟩
    · rw [hprec] at hq; simpa using hq
    · have hd : isWs d = true := hpre d (by rw [hprec]; exact List.mem_cons_self _ _)
      rw [hsplit, hprec] at hhd
      simp [List.headI] at hhd
      rw [hhd] at hd
      simp at hd

/-- The sequence of word strings does not depend on the scan start position. -/
theorem wmAux_snd_irrel (s : List Char) (p p' : Nat) :
    (wmAux s p).map Prod.snd = (wmAux s p').map Prod.snd := by
  induction s generalizing p p' with
  | nil => simp [wmAux]
  | cons c cs ih =>
    by_cases hc : isWs c
    · have h1 : wmAux (c :: cs) p = wmAux cs (p + 1) := by simp [wmAux, hc]
      have h2 : wmAux (c :: cs) p' = wmAux cs (p' + 1) := by simp [wmAux, hc]
      rw [h1, h2]
      exact ih (p + 1) (p' + 1)
    · have hstep : ∀ r, wmAux (c :: cs) r =
          (match wmAux cs (r + 1) with
           | (q, x) :: ms =>
             if q = r + 1 then (r, c :: x) :: ms else (r, [c]) :: (q, x) :: ms
           | [] => [(r, [c])]) := by
        intro r
        simp [wmAux, hc]
      rw [hstep p, hstep p']
      rcases h1 : wmAux cs (p + 1) with - | ⟨⟨q, x⟩, ms⟩ <;>
        rcases h2 : wmAux cs (p' + 1) with - | ⟨⟨q', x'⟩, ms'⟩
      · simp
      · exfalso
        have := wmAux_eq_nil cs (p' + 1) (wmAux_nil_all_ws cs (p + 1) h1)
        rw [this] at h2
        simp at h2
      · exfalso
        have := wmAux_eq_nil cs (p + 1) (wmAux_nil_all_ws cs (p' + 1) h2)
        rw [this] at h1
        simp at h1
      · have hih := ih (p + 1) (p' + 1)
        rw [h1, h2] at hih
        simp only [List.map_cons] at hih
        injection hih with hx hms
        have hiff1 := wmAux_first_at_iff cs (p + 1) q x ms h1
        have hiff2 := wmAux_first_at_iff cs (p' + 1) q' x' ms' h2
        dsimp only
        by_cases hm : q = p + 1
        · have hm' : q' = p' + 1 := hiff2.mpr (hiff1.mp hm)
          rw [if_pos hm, if_pos hm']
          simp [hx, hms]
        · have hm' : ¬ q' = p' + 1 := fun hcon => hm (hiff1.mpr (hiff2.mp hcon))
          rw [if_neg hm, if_neg hm']
          simp [hx, hms]

/-- Absolute end offset of a word match. -/
def mEnd (m : Nat × List Char) : Nat := m.1 + m.2.length

/-- End offset of the `k`-word chunk at the front of the match list. -/
def chunkEnd (ms : List (Nat × List Char)) (k : Nat) : Nat :=
  mEnd (ms.getD (k - 1) (0, []))

/-- Master lemma: if scanning the suffix of the document that starts at
absolute position `e` (from scan position `e`) yields the matches `ms`, then
the slice of that suffix spanning the first `k` matches starts and ends on
word boundaries, contains exactly those `k` words, and scanning restarts
cleanly after the slice. -/
theorem chunkSlice :
    ∀ (k : Nat) (s : List Char) (e : Nat) (ms : List (Nat × List Char)),
    wmAux s e = ms → 1 ≤ k → k ≤ ms.length →
    e ≤ ms.headI.1 ∧
    ms.headI.1 < chunkEnd ms k ∧
    chunkEnd ms k - e ≤ s.length ∧
    (∀ i, e ≤ i → i < ms.headI.1 → isWs (s.getD (i - e) ' ') = true) ∧
    isWs (s.getD (ms.headI.1 - e) ' ') = false ∧
    isWs (s.getD (chunkEnd ms k - 1 - e) ' ') = false ∧
    (wordMatches (sliceL s (ms.headI.1 - e) (chunkEnd ms k - e))).map Prod.snd
      = (ms.take k).map Prod.snd ∧
    wmAux (s.drop (chunkEnd ms k - e)) (chunkEnd ms k) = ms.drop k ∧
    (s.drop (chunkEnd ms k - e) = [] ∨ isWs (s.drop (chunkEnd ms k - e)).headI = true) := by
  intro k
  induction k with
  | zero => intro s e ms hinv hk1 hk2; omega
  | succ k ih =>
    intro s e ms hinv hk1 hk2
    rcases hmseq : ms with - | ⟨⟨q, w⟩, rest⟩
    · rw [hmseq] at hk2; simp at hk2
    · subst hmseq
      obtain ⟨pre, suf, hsplit, hpre, hq, hwne, hwnw, hsuf, hsufws⟩ :=
        wmAux_eq_cons s e q w rest hinv
      have hwlen : 1 ≤ w.length := by
        rcases w with - | ⟨a, t⟩
        · exact absurd rfl hwne
        · simp
      have hslen : s.length = pre.length + w.length + suf.length := by
        rw [hsplit]; simp; omega
      have hheadI : ((q, w) :: rest).headI.1 = q := rfl
      rcases Nat.eq_zero_or_pos k with hk0 | hkpos
      · -- base case: a one-word chunk
        subst hk0
        have hce : chunkEnd ((q, w) :: rest) 1 = q + w.length := by
          simp [chunkEnd, mEnd]
        rw [hheadI, hce]
        have hae : q - e = pre.length := by omega
        refine ⟨by omega, by omega, by omega, ?_, ?_, ?_, ?_, ?_, ?_⟩
        · intro i hie hia
          have hlt : i - e < pre.length := by omega
          rw [hsplit, List.append_assoc, getD_append_left _ _ _ _ hlt]
          exact hpre _ (getD_mem _ _ _ hlt)
        · rw [hsplit, List.append_assoc, hae]
          rw [show pre.length = pre.length + 0 by omega, getD_append_shift]
          rcases w with - | ⟨a, t⟩
          · exact absurd rfl hwne
          · simpa using hwnw a (List.mem_cons_self _ _)
        · have hidx : q + w.length - 1 - e = pre.length + (w.length - 1) := by omega
          rw [hsplit, List.append_assoc, hidx, getD_append_shift]
          have hlt : w.length - 1 < w.length := by omega
          rw [getD_append_left _ _ _ _ hlt]
          exact hwnw _ (getD_mem _ _ _ hlt)
        · have hdrop : s.drop (q - e) = w ++ suf := by
            rw [hsplit, List.append_assoc, hae, List.drop_left]
          have htake : (w ++ suf).take (q + w.length - e - (q - e)) = w := by
            rw [show q + w.length - e - (q - e) = w.length by omega, List.take_left]
          rw [sliceL, hdrop, htake]
          have hw1 : wordMatches w = [(0, w)] := by
            have := wmAux_word_append w [] 0 hwne hwnw (Or.inl rfl)
            simpa [wordMatches, wmAux] using this
          rw [hw1]
          simp
        · have hdrop : s.drop (q + w.length - e) = suf := by
            rw [hsplit, show q + w.length - e = (pre ++ w).length by simp; omega,
              List.drop_left]
          rw [hdrop]
          simpa using hsuf
        · have hdrop : s.drop (q + w.length - e) = suf := by
            rw [hsplit, show q + w.length - e = (pre ++ w).length by simp; omega,
              List.drop_left]
          rw [hdrop]
          exact hsufws
      · -- step case: the chunk has k + 1 ≥ 2 words
        have hrestlen : k ≤ rest.length := by
          simp at hk2; omega
        have hihave := ih suf (q + w.length) rest hsuf (by omega) hrestlen
        obtain ⟨iha, ihb, ihc, ihgap, ihstart, ihend, ihslice, ihdrop, ihtail⟩ := hihave
        have hsufne : suf ≠ [] := by
          intro hcon
          have hrest0 : rest = [] := by
            rw [hcon] at hsuf
            simpa [wmAux] using hsuf.symm
          rw [hrest0] at hrestlen
          simp at hrestlen
          omega
        have hsufhd : isWs suf.headI = true := by
          rcases hsufws with hcon | hws
          · exact absurd hcon hsufne
          · exact hws
        -- the scan of suf cannot start a word at position q + w.length itself
        have hstrict : q + w.length < rest.headI.1 := by
          rcases hresteq : rest with - | ⟨⟨q2, w2⟩, rest2⟩
          · rw [hresteq] at hrestlen; simp at hrestlen; omega
          · rw [hresteq] at hsuf
            have hiff := wmAux_first_at_iff suf (q + w.length) q2 w2 rest2 hsuf
            have hge : q + w.length ≤ q2 :=
              wmAux_offset_ge suf (q + w.length) (q2, w2)
                (by rw [hsuf]; exact List.mem_cons_self _ _)
            rcases Nat.lt_or_ge (q + w.length) q2 with hlt | hge2
            · simpa [hresteq, List.headI] using hlt
            · have hq2 : q2 = q + w.length := by omega
              have := hiff.mp hq2
              rw [this] at hsufhd
              simp at hsufhd
        have hce : chunkEnd ((q, w) :: rest) (k + 1) = chunkEnd rest k := by
          rcases Nat.exists_eq_add_of_le hkpos with ⟨k2, hk'⟩
          subst hk'
          unfold chunkEnd
          congr 1
          rw [show Nat.succ 0 + k2 + 1 - 1 = k2 + 1 by omega,
            show Nat.succ 0 + k2 - 1 = k2 by omega, List.getD_cons_succ]
        rw [hheadI, hce]
        have hBa : rest.headI.1 < chunkEnd rest k := ihb
        have hBb : q + w.length ≤ rest.headI.1 := iha
        have hBsuf : chunkEnd rest k - (q + w.length) ≤ suf.length := ihc
        have hae : q - e = pre.length := by omega
        have hBi : chunkEnd rest k - e =
            pre.length + w.length + (chunkEnd rest k - (q + w.length)) := by omega
        refine ⟨by omega, by omega, by omega, ?_, ?_, ?_, ?_, ?_, ?_⟩
        · intro i hie hia
          have hlt : i - e < pre.length := by omega
          rw [hsplit, List.append_assoc, getD_append_left _ _ _ _ hlt]
          exact hpre _ (getD_mem _ _ _ hlt)
        · rw [hsplit, List.append_assoc, hae]
          rw [show pre.length = pre.length + 0 by omega, getD_append_shift]
          rcases w with - | ⟨a, t⟩
          · exact absurd rfl hwne
          · simpa using hwnw a (List.mem_cons_self _ _)
        · have hidx : chunkEnd rest k - 1 - e =
              (pre ++ w).length + (chunkEnd rest k - 1 - (q + w.length)) := by
            simp; omega
          rw [hsplit, hidx, getD_append_shift]
          exact ihend
        · -- the slice carries w, then the whitespace gap, then the tail slice
          have hdrop : s.drop (q - e) = w ++ suf := by
            rw [hsplit, List.append_assoc, hae, List.drop_left]
          have htake : (w ++ suf).take (chunkEnd rest k - e - (q - e)) =
              w ++ suf.take (chunkEnd rest k - (q + w.length)) := by
            rw [show chunkEnd rest k - e - (q - e) =
              w.length + (chunkEnd rest k - (q + w.length)) by omega,
              List.take_add, List.take_left, List.drop_left]
          rw [sliceL, hdrop, htake]
          have hsufsplit : suf.take (chunkEnd rest k - (q + w.length)) =
              suf.take (rest.headI.1 - (q + w.length)) ++
                (suf.drop (rest.headI.1 - (q + w.length))).take
                  (chunkEnd rest k - rest.headI.1) := by
            rw [← List.take_add]
            congr 1
            omega
          have hgapws : ∀ c ∈ suf.take (rest.headI.1 - (q + w.length)), isWs c = true := by
            intro c hc
            obtain ⟨j, hj1, hj2, hj3⟩ := mem_take_getD suf _ ' ' c hc
            rw [← hj3]
            have := ihgap (q + w.length + j) (by omega) (by omega)
            simpa [Nat.add_sub_cancel_left] using this
          have hXslice : (suf.drop (rest.headI.1 - (q + w.length))).take
                (chunkEnd rest k - rest.headI.1) =
              sliceL suf (rest.headI.1 - (q + w.length))
                (chunkEnd rest k - (q + w.length)) := by
            rw [sliceL]
            congr 1
            omega
          have hgne : suf.take (rest.headI.1 - (q + w.length)) ≠ [] := by
            rcases hsufeq : suf with - | ⟨d, t⟩
            · exact absurd hsufeq hsufne
            · rcases hn : rest.headI.1 - (q + w.length) with - | n
              · omega
              · simp [List.take_succ_cons]
          have hghd : isWs (suf.take (rest.headI.1 - (q + w.length))).headI = true := by
            rcases hsufeq : suf with - | ⟨d, t⟩
            · exact absurd hsufeq hsufne
            · rcases hn : rest.headI.1 - (q + w.length) with - | n
              · omega
              · rw [List.take_succ_cons]
                rw [hsufeq] at hsufhd
                simpa [List.headI] using hsufhd
          rw [hsufsplit, hXslice]
          have hwords := wmAux_word_append w
            (suf.take (rest.headI.1 - (q + w.length)) ++
              sliceL suf (rest.headI.1 - (q + w.length)) (chunkEnd rest k - (q + w.length)))
            0 hwne hwnw
            (by
              right
              rcases hgeq : suf.take (rest.headI.1 - (q + w.length)) with - | ⟨d, t⟩
              · exact absurd hgeq hgne
              · rw [hgeq] at hghd
                simpa [List.headI] using hghd)
          rw [wordMatches, ← List.append_assoc]
          rw [← List.append_assoc] at hwords
          rw [hwords]
          have hwsskip := wmAux_ws_append (suf.take (rest.headI.1 - (q + w.length)))
            (sliceL suf (rest.headI.1 - (q + w.length)) (chunkEnd rest k - (q + w.length)))
            (0 + w.length) hgapws
          rw [hwsskip]
          simp only [List.map_cons, List.take_succ_cons]
          congr 1
          rw [wmAux_snd_irrel _ _ 0]
          exact ihslice
        · have hdropidx : s.drop (chunkEnd rest k - e) =
              suf.drop (chunkEnd rest k - (q + w.length)) := by
            rw [hsplit, hBi, ← List.drop_drop]
            congr 1
            rw [show pre.length + w.length = (pre ++ w).length by simp,
              show pre ++ w ++ suf = (pre ++ w) ++ suf by simp, List.drop_left]
          rw [hdropidx]
          rw [show ((q, w) :: rest).drop (k + 1) = rest.drop k from rfl]
          exact ihdrop
        · have hdropidx : s.drop (chunkEnd rest k - e) =
              suf.drop (chunkEnd rest k - (q + w.length)) := by
            rw [hsplit, hBi, ← List.drop_drop]
            congr 1
            rw [show pre.length + w.length = (pre ++ w).length by simp,
              show pre ++ w ++ suf = (pre ++ w) ++ suf by simp, List.drop_left]
          rw [hdropidx]
          exact ihtail

/-! ### Data model (`src/utils/documentParser.ts`) -/

structure DocumentCallout where
  type : List Char
  title : List Char
  color : List Char
  startOffset : Nat
deriving DecidableEq

structure DocumentHeading where
  level : Nat
  text : List Char
  startOffset : Nat
  callout : Option DocumentCallout := none
deriving DecidableEq

structure DocumentFlag where
  type : List Char
  message : List Char
  startOffset : Nat
  color : List Char
  lineText : List Char
deriving DecidableEq

structure DocumentPage where
  content : List Char
  wordCount : Nat
  startOffset : Nat
  endOffset : Nat
  pageNumber : Nat
  headings : Option (List DocumentHeading) := none
  flags : Option (List DocumentFlag) := none
deriving DecidableEq

/-- Characters JavaScript's `.` does not match (ASCII line terminators). -/
def isLineTerm (c : Char) : Bool := c = '\n' || c = '\r'

/-- First index satisfying the predicate, mirroring JS scans. -/
def findIdxQ {α : Type} (p : α → Bool) : List α → Option Nat
  | [] => none
  | x :: xs => if p x then some 0 else (findIdxQ p xs).map (· + 1)

/-! ### The heading scanner

Embedding of the regex `/^#{1,6}\s+.+$/gm` used by `collectHeadings`
(`src/utils/simplePagination.ts`) and `parseHeadingsWithCallouts`
(`src/utils/documentParser.ts`).  `matchHeadingAt` computes the length of a
match anchored at a line start: a run of 1–6 `#`, a nonempty whitespace run
(`\s+`, which may cross newlines), then at least one non-line-terminator
character up to the line end.  When the whitespace run reaches the end of the
string, the regex backtracks and `.+$` matches a final run of non-newline
whitespace, which is reflected in the end-of-string branch. -/

def matchHeadingAt (s : List Char) : Option Nat :=
  let hashes := s.takeWhile (· = '#')
  if hashes.length = 0 || 6 < hashes.length then none
  else
    let rest := s.drop hashes.length
    let wsRun := rest.takeWhile isWs
    if wsRun.length = 0 then none
    else
      match rest.drop wsRun.length with
      | [] =>
        -- end of string after the whitespace run: `.+$` must match trailing
        -- non-newline whitespace inside the run (largest split wins)
        match findIdxQ (fun c => !(isLineTerm c)) wsRun.reverse with
        | none => none
        | some j =>
          let idx := wsRun.length - 1 - j
          if 1 ≤ idx then some (hashes.length + idx + 1) else none
      | c :: restLine =>
        some (hashes.length + wsRun.length +
          ((c :: restLine).takeWhile (fun x => !(isLineTerm x))).length)

/-- Global scan of the heading regex: positions are tried in order, `^` only
fires at the start of a line, and a match advances the scan past its end
(`skip` counts the remaining characters of the current match). -/
def scanHeadingsGo : List Char → Nat → Bool → Nat → List (Nat × Nat)
  | [], _, _, _ => []
  | c :: rest, pos, _, Nat.succ k => scanHeadingsGo rest (pos + 1) (c == '\n') k
  | c :: rest, pos, ls, 0 =>
    if ls then
      match matchHeadingAt (c :: rest) with
      | some L => (pos, L) :: scanHeadingsGo rest (pos + 1) (c == '\n') (L - 1)
      | none => scanHeadingsGo rest (pos + 1) (c == '\n') 0
    else scanHeadingsGo rest (pos + 1) (c == '\n') 0

/-- All `(index, length)` matches of `/^#{1,6}\s+.+$/gm` in the content. -/
def findHeadingTokens (s : List Char) : List (Nat × Nat) :=
  scanHeadingsGo s 0 true 0

/-- `match[0].match(/^#+/)?.[0].length ?? 1` -/
def headingLevel (m : List Char) : Nat :=
  let n := (m.takeWhile (· = '#')).length
  if n = 0 then 1 else n

/-- `match[0].replace(/^#{1,6}\s*/, "").trim()` -/
def headingText (m : List Char) : List Char :=
  let n := (m.takeWhile (· = '#')).length
  trimL ((m.drop (min n 6)).dropWhile isWs)

/-- `collectHeadings` from `src/utils/simplePagination.ts`. -/
def collectHeadings (content : List Char) (startOffset : Nat) : List DocumentHeading :=
  (findHeadingTokens content).map fun t =>
    let m := sliceL content t.1 (t.1 + t.2)
    { level := headingLevel m, text := headingText m, startOffset := startOffset + t.1 }

/-! ### Image counting (`/!\[.*?\]\(.*?\)/g` in `src/utils/simplePagination.ts`)

The lazy dots are embedded with their backtracking semantics: the scanner
looks for the first `](` (no line terminator in between) whose parenthesised
part closes with `)` before a line terminator; on an inner failure it resumes
the search for a later `](`. -/

def parenTail : List Char → Option Nat
  | [] => none
  | c :: rest =>
    if c = ')' then some 1
    else if isLineTerm c then none
    else (parenTail rest).map (· + 1)

def lazyImgTail : List Char → Option Nat
  | [] => none
  | c :: rest =>
    if isLineTerm c then none
    else if c = ']' then
      match rest with
      | '(' :: rest2 =>
        match parenTail rest2 with
        | some n => some (2 + n)
        | none => (lazyImgTail rest).map (· + 1)
      | _ => (lazyImgTail rest).map (· + 1)
    else (lazyImgTail rest).map (· + 1)

def matchImageAt : List Char → Option Nat
  | '!' :: '[' :: rest => (lazyImgTail rest).map (· + 2)
  | _ => none

/-- Count non-overlapping matches left to right; `skip` carries the number of
characters of the current match still to pass over. -/
def ciGo : List Char → Nat → Nat
  | [], _ => 0
  | _ :: rest, Nat.succ k => ciGo rest k
  | c :: rest, 0 =>
    match matchImageAt (c :: rest) with
    | some n => 1 + ciGo rest (n - 1)
    | none => ciGo rest 0

def countImages (s : List Char) : Nat := ciGo s 0

/-! ### Fixed-word-count pagination -/

/-- The look-ahead span used to count images for the page starting at word
index `cur` (`src/utils/simplePagination.ts`, lines 30–36). -/
def lookAheadText (text : List Char) (ms : List (Nat × List Char)) (cur : Nat) : List Char :=
  let lookAheadEnd := min (cur + 500) ms.length
  let lookStart := (ms.getD cur (0, [])).1
  let lookEndPos :=
    if lookAheadEnd < ms.length then (ms.getD lookAheadEnd (0, [])).1 else text.length
  sliceL text lookStart lookEndPos

/-- The `while` loop of `paginateDocument`.  The loop in the source runs at
most 10 001 iterations because of its own page-number guard; `fuel` is that
bound (maintained as `10001 - pageNumber`), which makes the recursion
structural without changing the computed pages. -/
def paginateLoopF (text : List Char) (ms : List (Nat × List Char)) :
    Nat → Nat → Nat → List DocumentPage
  | 0, _, _ => []
  | Nat.succ fuel, cur, pageNumber =>
    if cur < ms.length then
      let imageCount := countImages (lookAheadText text ms cur)
      let wordsThisPage := max 50 (500 - imageCount * 100)
      let endW := min (cur + wordsThisPage) ms.length
      let a := (ms.getD cur (0, [])).1
      let b := mEnd (ms.getD (endW - 1) (0, []))
      let content := sliceL text a b
      let page : DocumentPage :=
        { content := content, wordCount := endW - cur, startOffset := a, endOffset := b,
          pageNumber := pageNumber, headings := some (collectHeadings content a) }
      if 10000 < pageNumber + 1 then [page]
      else page :: paginateLoopF text ms fuel endW (pageNumber + 1)
    else []

/-- `paginateDocument` from `src/utils/simplePagination.ts`. -/
def paginateDocument (text : List Char) : List DocumentPage :=
  if text.all isWs then []
  else
    let ms := wordMatches text
    if ms.isEmpty then []
    else paginateLoopF text ms 10001 0 0

/-- The `for` loop of `parseDocumentIntoPages` (`src/utils/documentParser.ts`,
lines 103–120): word matches are consumed in chunks of `wordsPerPage`.  The
loop advances by at least one word per iteration (for a positive target), so
`ms.length + 1` fuel is exact; the fuel only makes the recursion
structural. -/
def fixedLoopF (text : List Char) (ms : List (Nat × List Char)) (w : Nat) :
    Nat → Nat → Nat → List DocumentPage
  | 0, _, _ => []
  | Nat.succ fuel, i, pn =>
    if i < ms.length then
      let chunk := (ms.drop i).take w
      let a := chunk.headI.1
      let b := mEnd (chunk.getLastD (0, []))
      { content := sliceL text a b, wordCount := chunk.length, startOffset := a,
        endOffset := b, pageNumber := pn } :: fixedLoopF text ms w fuel (i + w) (pn + 1)
    else []

/-- `parseDocumentIntoPages` from `src/utils/documentParser.ts`. -/
def parseDocumentIntoPages (text : List Char) (wordsPerPage : Nat) : List DocumentPage :=
  if text.all isWs then []
  else
    let ms := wordMatches text
    if ms.isEmpty then []
    else fixedLoopF text ms wordsPerPage (ms.length + 1) 0 0

/-! ### The pagination partition property (claim C1) -/

/-- The word sequence of a page, recovered from the page's own content. -/
def pageWordStrings (p : DocumentPage) : List (List Char) :=
  (wordMatches p.content).map Prod.snd

/-- The page's content is the text slice between its offsets, and both ends
lie on word boundaries (maximal runs of non-whitespace). -/
def WordAligned (text : List Char) (p : DocumentPage) : Prop :=
  p.content = sliceL text p.startOffset p.endOffset ∧
  p.startOffset < p.endOffset ∧ p.endOffset ≤ text.length ∧
  isWs (text.getD p.startOffset ' ') = false ∧
  isWs (text.getD (p.endOffset - 1) ' ') = false ∧
  (p.startOffset = 0 ∨ isWs (text.getD (p.startOffset - 1) ' ') = true) ∧
  (p.endOffset = text.length ∨ isWs (text.getD p.endOffset ' ') = true)

instance (text : List Char) (p : DocumentPage) : Decidable (WordAligned text p) := by
  unfold WordAligned; infer_instance

/-- Consecutive pages never overlap (and hence offsets strictly increase,
since every aligned page has `startOffset < endOffset`). -/
def orderedB : List DocumentPage → Bool
  | [] => true
  | [_] => true
  | p :: q :: rest => (p.endOffset ≤ q.startOffset) && orderedB (q :: rest)

/-- The claim-C1 property for a page list: pages are ordered and
non-overlapping, each page is word-aligned, and the pages' word sequences
concatenate to exactly the document's word sequence. -/
def PagesPartitionWords (pages : List DocumentPage) (text : List Char) : Prop :=
  orderedB pages = true ∧
  (∀ p ∈ pages, WordAligned text p) ∧
  (pages.map pageWordStrings).flatten = (wordMatches text).map Prod.snd

instance (pages : List DocumentPage) (text : List Char) :
    Decidable (PagesPartitionWords pages text) := by
  unfold PagesPartitionWords; infer_instance

/-! ### More list helpers for the loop proofs -/

theorem getD_drop {α : Type} (l : List α) (n j : Nat) (d : α) :
    (l.drop n).getD j d = l.getD (n + j) d := by
  induction l generalizing n with
  | nil => simp
  | cons x xs ih =>
    rcases n with - | n
    · simp
    · simpa [Nat.succ_add] using ih n

theorem getD_irrel {α : Type} (l : List α) (j : Nat) (d d2 : α) (h : j < l.length) :
    l.getD j d = l.getD j d2 := by
  induction l generalizing j with
  | nil => simp at h
  | cons x xs ih =>
    rcases j with - | j
    · simp
    · simpa using ih j (by simpa using h)

theorem headI_drop {α : Type} [Inhabited α] (l : List α) (n : Nat) (d : α)
    (h : n < l.length) : (l.drop n).headI = l.getD n d := by
  induction l generalizing n with
  | nil => simp at h
  | cons x xs ih =>
    rcases n with - | n
    · simp [List.headI]
    · simpa using ih n (by simpa using h)

theorem getLastD_eq_getD {α : Type} (l : List α) (d : α) :
    l.getLastD d = l.getD (l.length - 1) d := by
  induction l generalizing d with
  | nil => simp
  | cons x xs ih =>
    rcases hxs : xs with - | ⟨y, ys⟩
    · simp [List.getLastD]
    · rw [← hxs]
      have h1 : (x :: xs).getLastD d = xs.getLastD x := by
        rw [hxs]; rfl
      rw [h1, ih x]
      have hlen : (x :: xs).length - 1 = xs.length := by simp
      rw [hlen]
      have hpos : 0 < xs.length := by rw [hxs]; simp
      have h2 : (x :: xs).getD xs.length d = xs.getD (xs.length - 1) d := by
        rcases hn : xs.length with - | n
        · omega
        · simp [List.getD_cons_succ, hn]
      rw [h2]
      exact getD_irrel xs _ x d (by omega)

theorem getD_take {α : Type} (l : List α) (n j : Nat) (d : α) (hj : j < n) :
    (l.take n).getD j d = l.getD j d := by
  induction l generalizing n j with
  | nil => simp
  | cons x xs ih =>
    rcases n with - | n
    · omega
    · rcases j with - | j
      · simp
      · simpa using ih n j (by omega)

theorem take_length_take {α : Type} (l : List α) (w : Nat) :
    l.take (l.take w).length = l.take w := by
  rcases le_or_lt w l.length with h | h
  · rw [List.length_take, Nat.min_eq_left h]
  · have hlen : (l.take w).length = l.length := by
      simp [List.length_take]; omega
    rw [hlen, List.take_length, List.take_of_length_le (by omega)]

theorem headI_take_pos {α : Type} [Inhabited α] (l : List α) (n : Nat) (hn : 0 < n) :
    (l.take n).headI = l.headI := by
  rcases l with - | ⟨x, xs⟩
  · simp
  · rcases n with - | n
    · omega
    · simp [List.headI]

theorem orderedB_cons (p : DocumentPage) (rest : List DocumentPage)
    (hrest : orderedB rest = true)
    (hall : ∀ q ∈ rest, p.endOffset ≤ q.startOffset) : orderedB (p :: rest) = true := by
  rcases rest with - | ⟨q, t⟩
  · rfl
  · have hq : p.endOffset ≤ q.startOffset := hall q (List.mem_cons_self _ _)
    simp [orderedB, hq, hrest]

theorem isWs_default_false : isWs 'A' = false := by decide

/-! ### Correctness of the fixed-word-count page loop -/

theorem fixedLoopF_spec (text : List Char) (ms : List (Nat × List Char)) (w : Nat)
    (hw : 0 < w) :
    ∀ (fuel i pn e : Nat),
    ms.length - i < fuel →
    wmAux (text.drop e) e = ms.drop i →
    e ≤ text.length →
    (e = 0 ∨ text.drop e = [] ∨ isWs (text.drop e).headI = true) →
    (∀ p ∈ fixedLoopF text ms w fuel i pn, e ≤ p.startOffset ∧ WordAligned text p) ∧
    orderedB (fixedLoopF text ms w fuel i pn) = true ∧
    ((fixedLoopF text ms w fuel i pn).map pageWordStrings).flatten
      = (ms.drop i).map Prod.snd := by
  intro fuel
  induction fuel with
  | zero => intro i pn e hfuel; omega
  | succ fuel ih =>
    intro i pn e hfuel hinv hetext hedisj
    by_cases hi : i < ms.length
    · -- one page is cut from the chunk of the next (at most) w words
      have hmsne : ms.drop i ≠ [] := by
        intro hcon
        have := congrArg List.length hcon
        simp at this
        omega
      set k := ((ms.drop i).take w).length with hk
      have hklen : k = min w (ms.length - i) := by
        rw [hk]; simp
      have hk1 : 1 ≤ k := by omega
      have hk2 : k ≤ (ms.drop i).length := by simp [hklen]
      obtain ⟨cs1, cs2, cs3, cs4, cs5, cs6, cs7, cs8, cs9⟩ :=
        chunkSlice k (text.drop e) e (ms.drop i) hinv hk1 hk2
      have hlendrop : (text.drop e).length = text.length - e := by simp
      set a := (ms.drop i).headI.1 with hadef
      set B := chunkEnd (ms.drop i) k with hBdef
      have hBtext : B ≤ text.length := by omega
      have haB : a < B := cs2
      have hea : e ≤ a := cs1
      -- identify the page record fields
      have hchunkheadI : ((ms.drop i).take w).headI.1 = a := by
        rw [headI_take_pos _ w hw]
      have hchunklast : mEnd (((ms.drop i).take w).getLastD (0, [])) = B := by
        rw [getLastD_eq_getD, ← hk, getD_take _ _ _ _ (by omega)]
        rfl
      have hcontent : sliceL text a B = sliceL (text.drop e) (a - e) (B - e) := by
        rw [sliceL, sliceL, List.drop_drop]
        congr 1
        · omega
        · congr 1; omega
      -- the loop unfolds to a page followed by the recursive call
      have hunfold : fixedLoopF text ms w (fuel + 1) i pn =
          { content := sliceL text a B, wordCount := k, startOffset := a,
            endOffset := B, pageNumber := pn } ::
            fixedLoopF text ms w fuel (i + w) (pn + 1) := by
        show (if i < ms.length then _ else []) = _
        rw [if_pos hi]
        simp only [hchunkheadI, ← hk]
        rw [hchunklast]
      -- facts about the whole-text positions
      have hgetDa : isWs (text.getD a ' ') = false := by
        have := cs5
        rw [getD_drop] at this
        rwa [show e + (a - e) = a by omega] at this
      have hgetDb : isWs (text.getD (B - 1) ' ') = false := by
        have := cs6
        rw [getD_drop] at this
        rwa [show e + (B - 1 - e) = B - 1 by omega] at this
      have hdropB : (text.drop e).drop (B - e) = text.drop B := by
        rw [List.drop_drop]
        congr 1
        omega
      have hstartSide : a = 0 ∨ isWs (text.getD (a - 1) ' ') = true := by
        rcases Nat.eq_or_lt_of_le hea with hae | hae
        · -- page starts exactly at the invariant position
          rcases hedisj with h0 | hnil | hws
          · left; omega
          · exfalso
            rw [hnil] at hinv
            simp [wmAux] at hinv
            omega
          · exfalso
            have hne : text.drop e ≠ [] := by
              intro hcon
              rw [hcon] at hinv
              simp [wmAux] at hinv
              omega
            have : (text.drop e).headI = (text.drop e).getD 0 ' ' := by
              rcases htd : text.drop e with - | ⟨x, xs⟩
              · exact absurd htd hne
              · rfl
            rw [this] at hws
            rw [show (0 : Nat) = a - e by omega] at hws
            rw [cs5] at hws
            simp at hws
        · right
          have := cs4 (a - 1) (by omega) (by omega)
          rw [getD_drop] at this
          rwa [show e + (a - 1 - e) = a - 1 by omega] at this
      have hendSide : B = text.length ∨ isWs (text.getD B ' ') = true := by
        rcases cs9 with hnil | hws
        · left
          rw [hdropB] at hnil
          have := congrArg List.length hnil
          simp at this
          omega
        · right
          rw [hdropB] at hws
          have hne : text.drop B ≠ [] := by
            intro hcon
            rw [hcon] at hws
            exact absurd hws (by decide)
          have : (text.drop B).headI = (text.drop B).getD 0 ' ' := by
            rcases htd : text.drop B with - | ⟨x, xs⟩
            · exact absurd htd hne
            · rfl
          rw [this, getD_drop, Nat.add_zero] at hws
          exact hws
      have hWA : WordAligned text
          { content := sliceL text a B, wordCount := k, startOffset := a,
            endOffset := B, pageNumber := pn } := by
        refine ⟨rfl, haB, hBtext, hgetDa, hgetDb, hstartSide, hendSide⟩
      -- the recursive call: new scan position B, new index i + w
      have hdropw : ms.drop (i + w) = (ms.drop i).drop k := by
        rw [List.drop_drop]
        rcases le_or_lt w (ms.length - i) with hcase | hcase
        · congr 1; omega
        · rw [List.drop_eq_nil_of_le (by omega), List.drop_eq_nil_of_le (by omega)]
      have hinv2 : wmAux (text.drop B) B = ms.drop (i + w) := by
        rw [hdropw, ← hdropB, ← cs8]
      have hedisj2 : B = 0 ∨ text.drop B = [] ∨ isWs (text.drop B).headI = true := by
        rcases cs9 with hnil | hws
        · right; left; rwa [hdropB] at hnil
        · right; right; rwa [hdropB] at hws
      obtain ⟨ihall, ihord, ihflat⟩ :=
        ih (i + w) (pn + 1) B (by omega) hinv2 hBtext hedisj2
      -- page word strings
      have hwords : pageWordStrings
          { content := sliceL text a B, wordCount := k, startOffset := a,
            endOffset := B, pageNumber := pn } = ((ms.drop i).take k).map Prod.snd := by
        show (wordMatches (sliceL text a B)).map Prod.snd = _
        rw [hcontent]
        exact cs7
      rw [hunfold]
      refine ⟨?_, ?_, ?_⟩
      · intro p hp
        rcases List.mem_cons.mp hp with hp | hp
        · subst hp
          exact ⟨hea, hWA⟩
        · obtain ⟨hBp, hWAp⟩ := ihall p hp
          exact ⟨by omega, hWAp⟩
      · refine orderedB_cons _ _ ihord ?_
        intro q hq
        exact (ihall q hq).1
      · simp only [List.map_cons, List.flatten_cons]
        rw [hwords, ihflat, hdropw]
        rw [← List.map_append, List.take_append_drop]
    · -- no words remain: the loop stops and the remaining matches are empty
      have hdropnil : ms.drop i = [] := List.drop_eq_nil_of_le (by omega)
      have hstop : fixedLoopF text ms w (fuel + 1) i pn = [] := by
        show (if i < ms.length then _ else []) = _
        rw [if_neg hi]
      rw [hstop, hdropnil]
      refine ⟨by simp, rfl, by simp⟩

/-! ### Correctness of the image-aware page loop (`paginateDocument`) -/

set_option maxHeartbeats 2000000 in
theorem paginateLoopF_spec (text : List Char) (ms : List (Nat × List Char)) :
    ∀ (fuel cur pn e : Nat),
    fuel + pn = 10001 → pn ≤ 10000 →
    wmAux (text.drop e) e = ms.drop cur →
    e ≤ text.length →
    (e = 0 ∨ text.drop e = [] ∨ isWs (text.drop e).headI = true) →
    (∀ p ∈ paginateLoopF text ms fuel cur pn, e ≤ p.startOffset ∧ WordAligned text p) ∧
    orderedB (paginateLoopF text ms fuel cur pn) = true ∧
    ((paginateLoopF text ms fuel cur pn).map pageWordStrings).flatten
      <+: (ms.drop cur).map Prod.snd ∧
    (pn + (paginateLoopF text ms fuel cur pn).length ≤ 10000 →
      ((paginateLoopF text ms fuel cur pn).map pageWordStrings).flatten
        = (ms.drop cur).map Prod.snd) ∧
    (∀ p ∈ paginateLoopF text ms fuel cur pn,
      (pageWordStrings p).length = p.wordCount ∧ 0 < p.wordCount ∧ p.wordCount ≤ 500) ∧
    (∀ p ∈ paginateLoopF text ms fuel cur pn, ∃ j, j < ms.length ∧
      p.startOffset = (ms.getD j (0, [])).1 ∧
      p.wordCount = min (max 50 (500 - countImages (lookAheadText text ms j) * 100))
        (ms.length - j)) := by
  intro fuel
  induction fuel with
  | zero => intro cur pn e hfuel hpn; omega
  | succ fuel ih =>
    intro cur pn e hfuel hpn hinv hetext hedisj
    by_cases hi : cur < ms.length
    · have hmsne : ms.drop cur ≠ [] := by
        intro hcon
        have := congrArg List.length hcon
        simp at this
        omega
      set ic := countImages (lookAheadText text ms cur) with hic
      set wtp := max 50 (500 - ic * 100) with hwtp
      have hwtp1 : 1 ≤ wtp := by rw [hwtp]; omega
      have hwtp500 : wtp ≤ 500 := by rw [hwtp]; omega
      set endW := min (cur + wtp) ms.length with hendW
      have hendWgt : cur < endW := by rw [hendW]; omega
      have hendWle : endW ≤ ms.length := by rw [hendW]; omega
      set k := endW - cur with hk
      have hk1 : 1 ≤ k := by omega
      have hk2 : k ≤ (ms.drop cur).length := by simp; omega
      obtain ⟨cs1, cs2, cs3, cs4, cs5, cs6, cs7, cs8, cs9⟩ :=
        chunkSlice k (text.drop e) e (ms.drop cur) hinv hk1 hk2
      have hlendrop : (text.drop e).length = text.length - e := by simp
      set a := (ms.drop cur).headI.1 with hadef
      set B := chunkEnd (ms.drop cur) k with hBdef
      have hBtext : B ≤ text.length := by omega
      have haB : a < B := cs2
      have hea : e ≤ a := cs1
      have hagetD : (ms.getD cur (0, [])).1 = a := by
        rw [hadef, headI_drop ms cur (0, []) hi]
      have hbgetD : mEnd (ms.getD (endW - 1) (0, [])) = B := by
        rw [hBdef, chunkEnd, getD_drop]
        congr 2
        omega
      have hcontent : sliceL text a B = sliceL (text.drop e) (a - e) (B - e) := by
        rw [sliceL, sliceL, List.drop_drop]
        congr 1
        · omega
        · congr 1; omega
      have hunfold : paginateLoopF text ms (fuel + 1) cur pn =
          (if 10000 < pn + 1 then
            [{ content := sliceL text a B, wordCount := k, startOffset := a,
               endOffset := B, pageNumber := pn,
               headings := some (collectHeadings (sliceL text a B) a) }]
          else
            { content := sliceL text a B, wordCount := k, startOffset := a,
              endOffset := B, pageNumber := pn,
              headings := some (collectHeadings (sliceL text a B) a) } ::
              paginateLoopF text ms fuel endW (pn + 1)) := by
        show (if cur < ms.length then _ else []) = _
        rw [if_pos hi]
        simp only [← hic, ← hwtp, ← hendW, hagetD, hbgetD, ← hk]
      have hgetDa : isWs (text.getD a ' ') = false := by
        have := cs5
        rw [getD_drop] at this
        rwa [show e + (a - e) = a by omega] at this
      have hgetDb : isWs (text.getD (B - 1) ' ') = false := by
        have := cs6
        rw [getD_drop] at this
        rwa [show e + (B - 1 - e) = B - 1 by omega] at this
      have hdropB : (text.drop e).drop (B - e) = text.drop B := by
        rw [List.drop_drop]
        congr 1
        omega
      have hstartSide : a = 0 ∨ isWs (text.getD (a - 1) ' ') = true := by
        rcases Nat.eq_or_lt_of_le hea with hae | hae
        · rcases hedisj with h0 | hnil | hws
          · left; omega
          · exfalso
            rw [hnil] at hinv
            simp [wmAux] at hinv
            omega
          · exfalso
            have hne : text.drop e ≠ [] := by
              intro hcon
              rw [hcon] at hinv
              simp [wmAux] at hinv
              omega
            have : (text.drop e).headI = (text.drop e).getD 0 ' ' := by
              rcases htd : text.drop e with - | ⟨x, xs⟩
              · exact absurd htd hne
              · rfl
            rw [this] at hws
            rw [show (0 : Nat) = a - e by omega] at hws
            rw [cs5] at hws
            simp at hws
        · right
          have := cs4 (a - 1) (by omega) (by omega)
          rw [getD_drop] at this
          rwa [show e + (a - 1 - e) = a - 1 by omega] at this
      have hendSide : B = text.length ∨ isWs (text.getD B ' ') = true := by
        rcases cs9 with hnil | hws
        · left
          rw [hdropB] at hnil
          have := congrArg List.length hnil
          simp at this
          omega
        · right
          rw [hdropB] at hws
          have hne : text.drop B ≠ [] := by
            intro hcon
            rw [hcon] at hws
            exact absurd hws (by decide)
          have : (text.drop B).headI = (text.drop B).getD 0 ' ' := by
            rcases htd : text.drop B with - | ⟨x, xs⟩
            · exact absurd htd hne
            · rfl
          rw [this, getD_drop, Nat.add_zero] at hws
          exact hws
      set pg : DocumentPage :=
        { content := sliceL text a B, wordCount := k, startOffset := a,
          endOffset := B, pageNumber := pn,
          headings := some (collectHeadings (sliceL text a B) a) } with hpg
      have hWA : WordAligned text pg :=
        ⟨rfl, haB, hBtext, hgetDa, hgetDb, hstartSide, hendSide⟩
      have hwords : pageWordStrings pg = ((ms.drop cur).take k).map Prod.snd := by
        show (wordMatches (sliceL text a B)).map Prod.snd = _
        rw [hcontent]
        exact cs7
      have hwordlen : (pageWordStrings pg).length = k := by
        rw [hwords]
        simp
        omega
      have hdropSplit : (ms.drop cur).map Prod.snd =
          ((ms.drop cur).take k).map Prod.snd ++ (ms.drop endW).map Prod.snd := by
        rw [← List.map_append]
        congr 1
        rw [show ms.drop endW = (ms.drop cur).drop k by
          rw [List.drop_drop]; congr 1; omega]
        rw [List.take_append_drop]
      have hkformula : k = min (max 50 (500 - countImages (lookAheadText text ms cur) * 100))
          (ms.length - cur) := by
        rw [hk, hendW, hwtp, hic]
        omega
      by_cases htrunc : 10000 < pn + 1
      · -- the page-count ceiling was hit: this is the final page
        rw [hunfold, if_pos htrunc]
        refine ⟨?_, rfl, ?_, ?_, ?_, ?_⟩
        · intro p hp
          rcases List.mem_cons.mp hp with hp | hp
          · subst hp; exact ⟨hea, hWA⟩
          · simp at hp
        · simp only [List.map_cons, List.map_nil, List.flatten_cons, List.flatten_nil,
            List.append_nil]
          rw [hwords, List.map_take]
          exact List.take_prefix _ _
        · intro hcount
          simp at hcount
          omega
        · intro p hp
          rcases List.mem_cons.mp hp with hp | hp
          · subst hp
            refine ⟨hwordlen, ?_, ?_⟩
            · show 0 < k
              omega
            · show k ≤ 500
              omega
          · simp at hp
        · intro p hp
          rcases List.mem_cons.mp hp with hp | hp
          · subst hp
            exact ⟨cur, hi, hagetD.symm, hkformula⟩
          · simp at hp
      · -- the loop continues after this page
        have hinv2 : wmAux (text.drop B) B = ms.drop endW := by
          rw [show ms.drop endW = (ms.drop cur).drop k by
            rw [List.drop_drop]; congr 1; omega, ← hdropB, ← cs8]
        have hedisj2 : B = 0 ∨ text.drop B = [] ∨ isWs (text.drop B).headI = true := by
          rcases cs9 with hnil | hws
          · right; left; rwa [hdropB] at hnil
          · right; right; rwa [hdropB] at hws
        obtain ⟨ihall, ihord, ihpre, ihfull, ihcount, ihform⟩ :=
          ih endW (pn + 1) B (by omega) (by omega) hinv2 hBtext hedisj2
        rw [hunfold, if_neg htrunc]
        refine ⟨?_, ?_, ?_, ?_, ?_, ?_⟩
        · intro p hp
          rcases List.mem_cons.mp hp with hp | hp
          · subst hp; exact ⟨hea, hWA⟩
          · obtain ⟨hBp, hWAp⟩ := ihall p hp
            exact ⟨by omega, hWAp⟩
        · refine orderedB_cons _ _ ihord ?_
          intro q hq
          exact (ihall q hq).1
        · simp only [List.map_cons, List.flatten_cons]
          rw [hwords, hdropSplit]
          obtain ⟨t, ht⟩ := ihpre
          exact ⟨t, by rw [List.append_assoc, ht]⟩
        · intro hcount
          simp only [List.length_cons] at hcount
          simp only [List.map_cons, List.flatten_cons]
          rw [hwords, hdropSplit, ihfull (by omega)]
        · intro p hp
          rcases List.mem_cons.mp hp with hp | hp
          · subst hp
            refine ⟨hwordlen, ?_, ?_⟩
            · show 0 < k
              omega
            · show k ≤ 500
              omega
          · exact ihcount p hp
        · intro p hp
          rcases List.mem_cons.mp hp with hp | hp
          · subst hp
            exact ⟨cur, hi, hagetD.symm, hkformula⟩
          · exact ihform p hp
    · have hdropnil : ms.drop cur = [] := List.drop_eq_nil_of_le (by omega)
      have hstop : paginateLoopF text ms (fuel + 1) cur pn = [] := by
        show (if cur < ms.length then _ else []) = _
        rw [if_neg hi]
      rw [hstop, hdropnil]
      exact ⟨by simp, rfl, by simp, by simp, by simp, by simp⟩

/-! ### Claim C1 -/

/-- Claim C1 as stated: both pagination functions produce an ordered,
non-overlapping, word-aligned partition of the document's words. -/
def C1Claim (text : List Char) (w : Nat) : Prop :=
  PagesPartitionWords (parseDocumentIntoPages text w) text ∧
  PagesPartitionWords (paginateDocument text) text

theorem all_ws_no_words (text : List Char) (h : text.all isWs = true) :
    wordMatches text = [] :=
  wmAux_eq_nil text 0 fun c hc => by
    have := List.all_eq_true.mp h c hc
    simpa using this

theorem partition_nil (text : List Char) (h : wordMatches text = []) :
    PagesPartitionWords [] text := by
  refine ⟨rfl, by simp, ?_⟩
  rw [h]
  simp

theorem parseDocumentIntoPages_partition (text : List Char) (w : Nat) (hw : 0 < w) :
    PagesPartitionWords (parseDocumentIntoPages text w) text := by
  unfold parseDocumentIntoPages
  by_cases hall : text.all isWs = true
  · rw [if_pos hall]
    exact partition_nil text (all_ws_no_words text hall)
  · rw [if_neg hall]
    by_cases hempty : (wordMatches text).isEmpty = true
    · simp only [hempty, if_pos]
      exact partition_nil text (by simpa [List.isEmpty_iff] using hempty)
    · simp only [hempty, Bool.false_eq_true, if_neg, not_false_iff]
      obtain ⟨hall2, hord, hflat⟩ :=
        fixedLoopF_spec text (wordMatches text) w hw ((wordMatches text).length + 1) 0 0 0
          (by omega) (by simpa [wordMatches] using rfl) (by omega) (Or.inl rfl)
      exact ⟨hord, fun p hp => (hall2 p hp).2, by simpa using hflat⟩

theorem paginateDocument_props (text : List Char) :
    orderedB (paginateDocument text) = true ∧
    (∀ p ∈ paginateDocument text, WordAligned text p) ∧
    ((paginateDocument text).map pageWordStrings).flatten
      <+: (wordMatches text).map Prod.snd ∧
    ((paginateDocument text).length ≤ 10000 →
      ((paginateDocument text).map pageWordStrings).flatten
        = (wordMatches text).map Prod.snd) ∧
    (∀ p ∈ paginateDocument text,
      (pageWordStrings p).length = p.wordCount ∧ 0 < p.wordCount ∧ p.wordCount ≤ 500) ∧
    (∀ p ∈ paginateDocument text, ∃ j, j < (wordMatches text).length ∧
      p.startOffset = ((wordMatches text).getD j (0, [])).1 ∧
      p.wordCount = min (max 50 (500 -
        countImages (lookAheadText text (wordMatches text) j) * 100))
        ((wordMatches text).length - j)) := by
  unfold paginateDocument
  by_cases hall : text.all isWs = true
  · rw [if_pos hall]
    rw [all_ws_no_words text hall]
    exact ⟨rfl, by simp, by simp, by simp, by simp, by simp⟩
  · rw [if_neg hall]
    by_cases hempty : (wordMatches text).isEmpty = true
    · simp only [hempty, if_pos]
      rw [show wordMatches text = [] by simpa [List.isEmpty_iff] using hempty]
      exact ⟨rfl, by simp, by simp, by simp, by simp, by simp⟩
    · simp only [hempty, Bool.false_eq_true, if_neg, not_false_iff]
      obtain ⟨hall2, hord, hpre, hfull, hcount, hform⟩ :=
        paginateLoopF_spec text (wordMatches text) 10001 0 0 0
          (by omega) (by omega) (by simpa [wordMatches] using rfl) (by omega) (Or.inl rfl)
      refine ⟨hord, fun p hp => (hall2 p hp).2, by simpa using hpre, ?_,
        hcount, hform⟩
      intro hlen
      have := hfull (by omega)
      simpa using this

/-- Claim C1 amended: the fixed chunking (`parseDocumentIntoPages`) is a full
partition for every text and positive target; `paginateDocument` always
yields an ordered word-aligned list whose words form a prefix of the
document's words, and a full partition whenever it produces at most 10 000
pages (the 10 000-page safety cap can otherwise truncate it). -/
theorem C1_amended (text : List Char) (w : Nat) (hw : 0 < w) :
    PagesPartitionWords (parseDocumentIntoPages text w) text ∧
    (orderedB (paginateDocument text) = true ∧
      (∀ p ∈ paginateDocument text, WordAligned text p) ∧
      ((paginateDocument text).map pageWordStrings).flatten
        <+: (wordMatches text).map Prod.snd) ∧
    ((paginateDocument text).length ≤ 10000 →
      PagesPartitionWords (paginateDocument text) text) := by
  obtain ⟨hord, hWA, hpre, hfull, -, -⟩ := paginateDocument_props text
  exact ⟨parseDocumentIntoPages_partition text w hw,
    ⟨hord, hWA, hpre⟩, fun hlen => ⟨hord, hWA, hfull hlen⟩⟩

/-- The C1 witness input: two short pages. -/
theorem C1_amended_witness :
    0 < 2 ∧
    (PagesPartitionWords (parseDocumentIntoPages "a bb  ccc".data 2) "a bb  ccc".data ∧
      (orderedB (paginateDocument "a bb  ccc".data) = true ∧
        (∀ p ∈ paginateDocument "a bb  ccc".data, WordAligned "a bb  ccc".data p) ∧
        ((paginateDocument "a bb  ccc".data).map pageWordStrings).flatten
          <+: (wordMatches "a bb  ccc".data).map Prod.snd) ∧
      ((paginateDocument "a bb  ccc".data).length ≤ 10000 →
        PagesPartitionWords (paginateDocument "a bb  ccc".data) "a bb  ccc".data)) :=
  ⟨by decide, C1_amended "a bb  ccc".data 2 (by decide)⟩

/-! #### The counterexample document for C1: 5 000 501 one-letter words -/

def bigText : List Char := (List.replicate 5000501 (['a', ' '] : List Char)).flatten

theorem wmAux_aSpace_step (t : List Char) (p : Nat) :
    (wmAux ('a' :: ' ' :: t) p).length = 1 + (wmAux t (p + 2)).length := by
  have hA : isWs 'a' = false := by decide
  have hSp : isWs ' ' = true := by decide
  have hinner : wmAux (' ' :: t) (p + 1) = wmAux t (p + 1 + 1) := by
    simp [wmAux, hSp]
  have hstep : wmAux ('a' :: ' ' :: t) p =
      (match wmAux (' ' :: t) (p + 1) with
       | (q, x) :: ms =>
         if q = p + 1 then (p, 'a' :: x) :: ms else (p, ['a']) :: (q, x) :: ms
       | [] => [(p, ['a'])]) := by
    simp [wmAux, hA]
  rw [hstep, hinner]
  rcases hrec : wmAux t (p + 1 + 1) with - | ⟨⟨q, x⟩, ms⟩
  · simp
  · have hq : p + 1 + 1 ≤ q :=
      wmAux_offset_ge t (p + 1 + 1) (q, x) (by rw [hrec]; exact List.mem_cons_self _ _)
    have hqne : ¬ q = p + 1 := by omega
    simp [if_neg hqne]
    omega

theorem wm_repl_len (n : Nat) :
    ∀ p, (wmAux ((List.replicate n (['a', ' '] : List Char)).flatten) p).length = n := by
  induction n with
  | zero => intro p; simp [wmAux]
  | succ n ih =>
    intro p
    rw [List.replicate_succ, List.flatten_cons]
    have hcons : (['a', ' '] : List Char) ++ (List.replicate n (['a', ' '] : List Char)).flatten
        = 'a' :: ' ' :: (List.replicate n (['a', ' '] : List Char)).flatten := rfl
    rw [hcons, wmAux_aSpace_step, ih (p + 2)]
    omega

theorem bigText_word_count : (wordMatches bigText).length = 5000501 :=
  wm_repl_len 5000501 0

theorem sum_le_mul_of_all_le (l : List Nat) (c : Nat) (h : ∀ x ∈ l, x ≤ c) :
    l.sum ≤ c * l.length := by
  induction l with
  | nil => simp
  | cons x xs ih =>
    simp only [List.sum_cons, List.length_cons]
    have hx : x ≤ c := h x (List.mem_cons_self _ _)
    have hxs := ih fun y hy => h y (List.mem_cons_of_mem _ hy)
    calc x + xs.sum ≤ c + c * xs.length := by omega
    _ = c * (xs.length + 1) := by ring

theorem paginateLoopF_length_le (text : List Char) (ms : List (Nat × List Char)) :
    ∀ fuel cur pn, (paginateLoopF text ms fuel cur pn).length ≤ fuel := by
  intro fuel
  induction fuel with
  | zero => intro cur pn; simp [paginateLoopF]
  | succ fuel ih =>
    intro cur pn
    show (if cur < ms.length then _ else []).length ≤ fuel + 1
    split
    · split
      · simp
      · simpa using ih _ _
    · simp

/-- The big document loses at least one word to the page-count ceiling, so
the claim's partition property fails for `paginateDocument`. -/
theorem C1_counterexample : ¬ C1Claim bigText 500 := by
  rintro ⟨-, hpag⟩
  obtain ⟨-, -, hflat⟩ := hpag
  obtain ⟨-, -, -, -, hcount, -⟩ := paginateDocument_props bigText
  -- the flattened word sequence of the pages has at most 500 × 10 001 entries
  have hlenflat : ((paginateDocument bigText).map pageWordStrings).flatten.length
      ≤ 500 * 10001 := by
    rw [List.length_flatten]
    have hmap : ((paginateDocument bigText).map pageWordStrings).map List.length
        = (paginateDocument bigText).map fun p => (pageWordStrings p).length := by
      rw [List.map_map]
      rfl
    rw [hmap]
    have hbound : ∀ x ∈ (paginateDocument bigText).map fun p => (pageWordStrings p).length,
        x ≤ 500 := by
      intro x hx
      obtain ⟨p, hp, hpx⟩ := List.mem_map.mp hx
      obtain ⟨hlen, -, h500⟩ := hcount p hp
      omega
    have hpages : (paginateDocument bigText).length ≤ 10001 := by
      unfold paginateDocument
      by_cases h1 : bigText.all isWs = true
      · rw [if_pos h1]; simp
      · rw [if_neg h1]
        by_cases h2 : (wordMatches bigText).isEmpty = true
        · simp only [h2, if_pos]; simp
        · simp only [h2, Bool.false_eq_true, if_neg, not_false_iff]
          exact paginateLoopF_length_le _ _ 10001 0 0
    calc ((paginateDocument bigText).map fun p => (pageWordStrings p).length).sum
        ≤ 500 * ((paginateDocument bigText).map fun p => (pageWordStrings p).length).length :=
          sum_le_mul_of_all_le _ 500 hbound
    _ ≤ 500 * 10001 := by simp; omega
  rw [hflat] at hlenflat
  rw [List.length_map, bigText_word_count] at hlenflat
  omega

/-! ### The adaptive paginator (`AdaptivePaginator`, `src/unnamed/part_001`)

The measurement oracle (`ContentMeasurer.measureContent`) is modelled as a
pure function from a text slice to its rendered content height, as the claim
prescribes; `doesContentFit` compares that height against the page's
available content height.  `estimateStartingWordCount` uses JS float
arithmetic (`0.55`, `1.6` ratios), so the estimate is abstracted as an
arbitrary natural-number parameter `est`; every theorem below holds for
every value of the estimate. -/

structure PageDimensions where
  width : Int
  height : Int
  paddingVertical : Int
  paddingHorizontal : Int
  fontSize : Int
deriving DecidableEq

/-- `ContentMeasurer.getAvailableContentHeight`. -/
def getAvailableContentHeight (d : PageDimensions) : Int :=
  d.height - 2 * d.paddingVertical

/-- `ContentMeasurer.doesContentFit` applied to a measured content height. -/
def doesContentFit (contentHeight : Int) (d : PageDimensions) : Bool :=
  contentHeight ≤ getAvailableContentHeight d

/-- Result of `AdaptivePaginator.tryWordCount`. -/
structure TryResult where
  wordCount : Nat
  content : List Char
  measurement : Int
deriving DecidableEq

/-- `AdaptivePaginator.tryWordCount`. -/
def tryWordCount (measure : List Char → Int) (text : List Char)
    (ms : List (Nat × List Char)) (startWordIndex wordCount : Nat) : Option TryResult :=
  let endWordIndex := min (startWordIndex + wordCount) ms.length
  if endWordIndex ≤ startWordIndex then none
  else
    let content := sliceL text (ms.getD startWordIndex (0, [])).1
      (mEnd (ms.getD (endWordIndex - 1) (0, [])))
    some ⟨endWordIndex - startWordIndex, content, measure content⟩

/-- The binary-search `while` loop of `findOptimalWordCount`; `fuel` is the
remaining iteration budget (`maxIterations - iterations`). -/
def bsLoop (measure : List Char → Int) (dims : PageDimensions) (text : List Char)
    (ms : List (Nat × List Char)) (si : Nat) :
    Nat → Nat → Option TryResult → Nat → Option TryResult
  | _, _, best, 0 => best
  | minW, maxW, best, Nat.succ fuel =>
    if minW < maxW then
      let mid := (minW + maxW + 1) / 2
      match tryWordCount measure text ms si mid with
      | none => best
      | some r =>
        if doesContentFit r.measurement dims then
          bsLoop measure dims text ms si mid maxW (some r) fuel
        else
          bsLoop measure dims text ms si minW (mid - 1) best fuel
    else best

/-- Initialisation of the binary-search state from the estimated-word-count
probe (`findOptimalWordCount`, lines 355–371): if the estimate fits it
becomes the best fit and the new lower bound, otherwise it caps the upper
bound; a failed probe leaves the bounds unchanged. -/
def foInit (dims : PageDimensions) (maxW1 : Nat) :
    Option TryResult → Nat × Nat × Option TryResult
  | some r =>
    if doesContentFit r.measurement dims then (r.wordCount, maxW1, some r)
    else (10, r.wordCount, none)
  | none => (10, maxW1, none)

/-- `AdaptivePaginator.findOptimalWordCount`. -/
def findOptimalWordCount (measure : List Char → Int) (dims : PageDimensions)
    (text : List Char) (ms : List (Nat × List Char)) (si est maxIter : Nat) :
    Option TryResult :=
  let maxW0 := min (est * 2) (ms.length - si)
  let maxW1 := if maxW0 < 10 then 10 else maxW0
  let s0 := foInit dims maxW1 (tryWordCount measure text ms si (min est maxW1))
  match bsLoop measure dims text ms si s0.1 s0.2.1 s0.2.2 maxIter with
  | some b => some b
  | none => tryWordCount measure text ms si 10

/-- Facts every `tryWordCount` result satisfies. -/
def TryOk (measure : List Char → Int) (text : List Char)
    (ms : List (Nat × List Char)) (si : Nat) (r : TryResult) : Prop :=
  0 < r.wordCount ∧ si + r.wordCount ≤ ms.length ∧
  r.measurement = measure r.content ∧
  r.content = sliceL text (ms.getD si (0, [])).1
    (mEnd (ms.getD (si + r.wordCount - 1) (0, [])))

theorem tryWordCount_ok (measure : List Char → Int) (text : List Char)
    (ms : List (Nat × List Char)) (si wc : Nat) (r : TryResult)
    (h : tryWordCount measure text ms si wc = some r) (hsi : si < ms.length) :
    TryOk measure text ms si r ∧ r.wordCount = min (si + wc) ms.length - si := by
  unfold tryWordCount at h
  set endW := min (si + wc) ms.length with hendW
  have hle : endW ≤ ms.length := by rw [hendW]; exact Nat.min_le_right _ _
  by_cases hend : endW ≤ si
  · rw [if_pos hend] at h
    simp at h
  · rw [if_neg hend] at h
    injection h with h
    subst h
    refine ⟨⟨by simp; omega, by simp; omega, rfl, ?_⟩, rfl⟩
    simp only
    congr 3
    omega

theorem tryWordCount_isSome (measure : List Char → Int) (text : List Char)
    (ms : List (Nat × List Char)) (si wc : Nat) (hsi : si < ms.length) (hwc : 0 < wc) :
    ∃ r, tryWordCount measure text ms si wc = some r := by
  unfold tryWordCount
  have hend : ¬ min (si + wc) ms.length ≤ si := by omega
  rw [if_neg hend]
  exact ⟨_, rfl⟩

theorem bsLoop_ok (measure : List Char → Int) (dims : PageDimensions) (text : List Char)
    (ms : List (Nat × List Char)) (si : Nat) (hsi : si < ms.length) :
    ∀ (fuel minW maxW : Nat) (best : Option TryResult),
    (∀ r, best = some r →
      TryOk measure text ms si r ∧ doesContentFit r.measurement dims = true) →
    ∀ r2, bsLoop measure dims text ms si minW maxW best fuel = some r2 →
      TryOk measure text ms si r2 ∧ doesContentFit r2.measurement dims = true := by
  intro fuel
  induction fuel with
  | zero => intro minW maxW best hbest r2 h2; exact hbest r2 h2
  | succ fuel ih =>
    intro minW maxW best hbest r2 h2
    unfold bsLoop at h2
    by_cases hlt : minW < maxW
    · rw [if_pos hlt] at h2
      dsimp only at h2
      rcases htry : tryWordCount measure text ms si ((minW + maxW + 1) / 2) with - | r
      · rw [htry] at h2
        exact hbest r2 h2
      · rw [htry] at h2
        dsimp only at h2
        by_cases hfit : doesContentFit r.measurement dims = true
        · rw [if_pos hfit] at h2
          refine ih _ _ _ ?_ r2 h2
          intro r3 h3
          injection h3 with h3
          subst h3
          exact ⟨(tryWordCount_ok measure text ms si _ r htry hsi).1, hfit⟩
        · rw [if_neg hfit] at h2
          exact ih _ _ _ hbest r2 h2
    · rw [if_neg hlt] at h2
      exact hbest r2 h2

/-- For every document, measurement oracle, estimate and iteration cap, the
per-page search returns a result; the result's measurement is the oracle's
measurement of its content, and either the content fits the available height
or the result is the minimum-viable fallback of 10 words (fewer only if
fewer words remain past the start index). -/
theorem findOptimalWordCount_spec (measure : List Char → Int) (dims : PageDimensions)
    (text : List Char) (ms : List (Nat × List Char)) (si est maxIter : Nat)
    (hsi : si < ms.length) :
    ∃ r, findOptimalWordCount measure dims text ms si est maxIter = some r ∧
      TryOk measure text ms si r ∧
      (doesContentFit r.measurement dims = true ∨
        r.wordCount = min 10 (ms.length - si)) := by
  unfold findOptimalWordCount
  dsimp only
  set maxW0 := min (est * 2) (ms.length - si) with hmaxW0
  set maxW1 := if maxW0 < 10 then 10 else maxW0 with hmaxW1
  set s0 := foInit dims maxW1 (tryWordCount measure text ms si (min est maxW1)) with hs0
  have hstateok : ∀ r, s0.2.2 = some r →
      TryOk measure text ms si r ∧ doesContentFit r.measurement dims = true := by
    intro r hr
    rw [hs0] at hr
    rcases htry : tryWordCount measure text ms si (min est maxW1) with - | r0
    · rw [htry] at hr
      simp [foInit] at hr
    · rw [htry] at hr
      simp only [foInit] at hr
      by_cases hfit : doesContentFit r0.measurement dims = true
      · rw [if_pos hfit] at hr
        simp at hr
        subst hr
        exact ⟨(tryWordCount_ok measure text ms si _ r0 htry hsi).1, hfit⟩
      · rw [if_neg hfit] at hr
        simp at hr
  rcases hbs : bsLoop measure dims text ms si s0.1 s0.2.1 s0.2.2 maxIter
    with - | b
  · -- no fit found in the search: the 10-word fallback is returned
    obtain ⟨rf, hrf⟩ := tryWordCount_isSome measure text ms si 10 hsi (by omega)
    refine ⟨rf, by simp only [hbs]; exact hrf,
      (tryWordCount_ok measure text ms si 10 rf hrf hsi).1, ?_⟩
    right
    have := (tryWordCount_ok measure text ms si 10 rf hrf hsi).2
    omega
  · obtain ⟨hok, hfit⟩ := bsLoop_ok measure dims text ms si hsi maxIter _ _ _ hstateok b hbs
    exact ⟨b, by simp only [hbs], hok, Or.inl hfit⟩

/-! ### Word match offsets are strictly increasing -/

theorem wmAux_word_ne_nil (s : List Char) (p : Nat) :
    ∀ m ∈ wmAux s p, m.2 ≠ [] := by
  induction s generalizing p with
  | nil => intro m hm; simp [wmAux] at hm
  | cons c cs ih =>
    intro m hm
    by_cases hc : isWs c
    · simp only [wmAux, hc, if_pos] at hm
      exact ih (p + 1) m hm
    · simp only [wmAux, hc, Bool.false_eq_true, if_neg, not_false_iff] at hm
      rcases hrec : wmAux cs (p + 1) with - | ⟨⟨q, x⟩, ms⟩
      · rw [hrec] at hm
        simp at hm
        simp [hm]
      · rw [hrec] at hm
        dsimp only at hm
        by_cases hq : q = p + 1
        · rw [if_pos hq] at hm
          rcases List.mem_cons.mp hm with hm | hm
          · subst hm; simp
          · exact ih (p + 1) m (by rw [hrec]; exact List.mem_cons_of_mem _ hm)
        · rw [if_neg hq] at hm
          rcases List.mem_cons.mp hm with hm | hm
          · subst hm; simp
          · exact ih (p + 1) m (by rw [hrec]; exact hm)

theorem wmAux_chain (s : List Char) (p : Nat) :
    List.Chain' (fun m m2 : Nat × List Char => m.1 < m2.1) (wmAux s p) := by
  induction s generalizing p with
  | nil => simp [wmAux]
  | cons c cs ih =>
    by_cases hc : isWs c
    · simp only [wmAux, hc, if_pos]
      exact ih (p + 1)
    · have hstep : wmAux (c :: cs) p =
          (match wmAux cs (p + 1) with
           | (q, x) :: ms =>
             if q = p + 1 then (p, c :: x) :: ms else (p, [c]) :: (q, x) :: ms
           | [] => [(p, [c])]) := by
        simp [wmAux, hc]
      rw [hstep]
      rcases hrec : wmAux cs (p + 1) with - | ⟨⟨q, x⟩, ms⟩
      · simp
      · have hchain := ih (p + 1)
        rw [hrec] at hchain
        obtain ⟨hhd, htl⟩ := List.chain'_cons'.mp hchain
        dsimp only
        by_cases hq : q = p + 1
        · rw [if_pos hq]
          refine List.chain'_cons'.mpr ⟨?_, htl⟩
          intro y hy
          have := hhd y hy
          omega
        · rw [if_neg hq]
          refine List.chain'_cons'.mpr ⟨?_, hchain⟩
          intro y hy
          simp at hy
          subst hy
          have hge : p + 1 ≤ q :=
            wmAux_offset_ge cs (p + 1) (q, x) (by rw [hrec]; exact List.mem_cons_self _ _)
          simp
          omega

theorem chain_getD_mono (l : List (Nat × List Char))
    (h : List.Chain' (fun m m2 : Nat × List Char => m.1 < m2.1) l) :
    ∀ i j, i ≤ j → j < l.length →
    (l.getD i (0, [])).1 ≤ (l.getD j (0, [])).1 := by
  induction l with
  | nil => intro i j hij hj; simp at hj
  | cons x xs ih =>
    intro i j hij hj
    obtain ⟨hhd, htl⟩ := List.chain'_cons'.mp h
    rcases i with - | i
    · rcases j with - | j
      · simp
      · have hxs : xs ≠ [] := by
          intro hcon
          rw [hcon] at hj
          simp at hj
        rcases hxseq : xs with - | ⟨y, ys⟩
        · exact absurd hxseq hxs
        · have hxy : x.1 < y.1 := hhd y (by rw [hxseq]; simp)
          have := ih htl 0 j (by omega) (by simpa using hj)
          rw [hxseq] at this
          simp only [List.getD_cons_zero] at this
          simp only [List.getD_cons_succ, List.getD_cons_zero]
          omega
    · rcases j with - | j
      · omega
      · simp only [List.getD_cons_succ]
        exact ih htl i j (by omega) (by simpa using hj)

theorem findIdxQ_some {α : Type} (p : α → Bool) (l : List α) (i : Nat)
    (h : findIdxQ p l = some i) (d : α) : i < l.length ∧ p (l.getD i d) = true := by
  induction l generalizing i with
  | nil => simp [findIdxQ] at h
  | cons x xs ih =>
    by_cases hx : p x
    · simp only [findIdxQ, hx, if_pos] at h
      injection h with h
      subst h
      exact ⟨by simp, by simpa using hx⟩
    · simp only [findIdxQ, hx, Bool.false_eq_true, if_neg, not_false_iff] at h
      rcases hrec : findIdxQ p xs with - | i2
      · rw [hrec] at h; simp at h
      · rw [hrec] at h
        simp at h
        obtain ⟨hi2, hpi2⟩ := ih i2 hrec
        subst h
        exact ⟨by simpa using hi2, by simpa using hpi2⟩

/-! ### `AdaptivePaginator.createPage` and `parseDocument` -/

/-- `AdaptivePaginator.createPage`. -/
def createPage (measure : List Char → Int) (dims : PageDimensions) (est maxIter : Nat)
    (text : List Char) (startOffset pageNumber : Nat) : Option (DocumentPage × Nat) :=
  let ms := wordMatches text
  match findIdxQ (fun m => decide (startOffset ≤ m.1)) ms with
  | none => none
  | some si =>
    match findOptimalWordCount measure dims text ms si est maxIter with
    | none => none
    | some r =>
      let a := (ms.getD si (0, [])).1
      let b := mEnd (ms.getD (si + r.wordCount - 1) (0, []))
      some ({ content := r.content, wordCount := r.wordCount, startOffset := a,
              endOffset := b, pageNumber := pageNumber }, b)

theorem createPage_progress (measure : List Char → Int) (dims : PageDimensions)
    (est maxIter : Nat) (text : List Char) (startOffset pageNumber : Nat)
    (pr : DocumentPage × Nat)
    (hc : createPage measure dims est maxIter text startOffset pageNumber = some pr) :
    startOffset < pr.2 := by
  unfold createPage at hc
  dsimp only at hc
  rcases hfind : findIdxQ (fun m => decide (startOffset ≤ m.1)) (wordMatches text)
    with - | si
  · rw [hfind] at hc; simp at hc
  · rw [hfind] at hc
    dsimp only at hc
    obtain ⟨hsilen, hsioff⟩ := findIdxQ_some _ _ si hfind (0, [])
    rcases hopt : findOptimalWordCount measure dims text (wordMatches text) si est maxIter
      with - | r
    · rw [hopt] at hc; simp at hc
    · rw [hopt] at hc
      dsimp only at hc
      injection hc with hc
      subst hc
      obtain ⟨r2, hr2eq, ⟨hwc, hbound, -, -⟩, -⟩ :=
        findOptimalWordCount_spec measure dims text (wordMatches text) si est maxIter hsilen
      rw [hopt] at hr2eq
      injection hr2eq with hr2eq
      subst hr2eq
      have hmono := chain_getD_mono (wordMatches text) (wmAux_chain text 0)
        si (si + r.wordCount - 1) (by omega)
        (by show si + r.wordCount - 1 < (wordMatches text).length; omega)
      have hword := wmAux_word_ne_nil text 0
        ((wordMatches text).getD (si + r.wordCount - 1) (0, []))
        (getD_mem _ _ _
          (by show si + r.wordCount - 1 < (wordMatches text).length; omega))
      have hwlen : 1 ≤ ((wordMatches text).getD (si + r.wordCount - 1) (0, [])).2.length := by
        rcases hweq : ((wordMatches text).getD (si + r.wordCount - 1) (0, [])).2 with - | ⟨y, ys⟩
        · exact absurd hweq hword
        · simp
      have hoff : startOffset ≤ ((wordMatches text).getD si (0, [])).1 := by
        simpa using hsioff
      show startOffset < mEnd ((wordMatches text).getD (si + r.wordCount - 1) (0, []))
      unfold mEnd
      omega

/-- The `while` loop of `AdaptivePaginator.parseDocument`: it walks the text
by `currentOffset`, which `createPage` strictly advances; the loop stops when
`createPage` returns nothing, the text is exhausted, or the page count
exceeds 10 000. -/
def adaptiveLoop (measure : List Char → Int) (dims : PageDimensions)
    (est maxIter : Nat) (text : List Char)
    (currentOffset pageNumber : Nat) : List DocumentPage :=
  if h : currentOffset < text.length then
    match hc : createPage measure dims est maxIter text currentOffset pageNumber with
    | none => []
    | some pr =>
      if 10000 < pageNumber + 1 then [pr.1]
      else pr.1 :: adaptiveLoop measure dims est maxIter text pr.2 (pageNumber + 1)
  else []
termination_by text.length - currentOffset
decreasing_by
  exact Nat.sub_lt_sub_left h
    (createPage_progress measure dims est maxIter text currentOffset pageNumber pr hc)

/-- `AdaptivePaginator.parseDocument`. -/
def adaptiveParseDocument (measure : List Char → Int) (dims : PageDimensions)
    (est maxIter : Nat) (text : List Char) : List DocumentPage :=
  if text.all isWs then []
  else if (wordMatches text).isEmpty then []
  else adaptiveLoop measure dims est maxIter text 0 0

theorem adaptiveLoop_length_le (measure : List Char → Int) (dims : PageDimensions)
    (est maxIter : Nat) (text : List Char) :
    ∀ (n co pn : Nat), text.length - co ≤ n → pn ≤ 10000 →
    (adaptiveLoop measure dims est maxIter text co pn).length ≤ 10001 - pn := by
  intro n
  induction n with
  | zero =>
    intro co pn hn hpn
    rw [adaptiveLoop]
    rw [dif_neg (by omega)]
    simp
  | succ n ih =>
    intro co pn hn hpn
    rw [adaptiveLoop]
    by_cases hco : co < text.length
    · rw [dif_pos hco]
      rcases hc : createPage measure dims est maxIter text co pn with - | pr
      · simp
      · dsimp only
        by_cases htr : 10000 < pn + 1
        · rw [if_pos htr]
          simp
          omega
        · rw [if_neg htr]
          have hprog := createPage_progress measure dims est maxIter text co pn pr hc
          have := ih pr.2 (pn + 1) (by omega) (by omega)
          simp only [List.length_cons]
          omega
    · rw [dif_neg hco]
      simp

/-! ### Claim C9: the 10 000-page ceiling -/

/-- With the invariant `fuel + pageNumber = 10001`, a text long enough to
feed every iteration makes the loop run to the ceiling exactly: each page
consumes at most 500 words, so `500 * fuel` remaining words guarantee the
loop never exhausts the text before the page guard fires. -/
theorem paginateLoopF_length_eq (text : List Char) (ms : List (Nat × List Char)) :
    ∀ fuel cur pn, fuel + pn = 10001 → 500 * fuel ≤ ms.length - cur →
    (paginateLoopF text ms fuel cur pn).length = fuel := by
  intro fuel
  induction fuel with
  | zero => intro cur pn h1 h2; simp [paginateLoopF]
  | succ fuel ih =>
    intro cur pn h1 h2
    have hcur : cur < ms.length := by omega
    have hwtp : max 50 (500 - countImages (lookAheadText text ms cur) * 100) ≤ 500 := by
      omega
    show (if cur < ms.length then _ else []).length = fuel + 1
    rw [if_pos hcur]
    dsimp only
    by_cases hg : 10000 < pn + 1
    · rw [if_pos hg]
      have hfuel : fuel = 0 := by omega
      simp [hfuel]
    · rw [if_neg hg]
      simp only [List.length_cons]
      rw [ih (min (cur + max 50 (500 - countImages (lookAheadText text ms cur) * 100))
            ms.length) (pn + 1) (by omega) (by omega)]

/-- Claim C9 as stated: the returned page list never exceeds 10 000 pages. -/
def C9Claim (text : List Char) : Prop :=
  (paginateDocument text).length ≤ 10000

/-- `bigText` starts with a word character. -/
theorem bigText_head :
    bigText = 'a' :: ' ' :: (List.replicate 5000500 (['a', ' '] : List Char)).flatten := by
  have h1 : (5000501 : Nat) = 5000500 + 1 := by norm_num
  rw [bigText, h1, List.replicate_succ, List.flatten_cons]
  rfl

/-- The big document drives `paginateDocument` through all 10 001 loop
iterations: the page guard `pageNumber > 10000` only fires after the
10 001st page has been pushed. -/
theorem paginateDocument_bigText_length :
    (paginateDocument bigText).length = 10001 := by
  have hall : bigText.all isWs = false := by
    simp only [bigText_head, List.all_cons, show isWs 'a' = false from by decide,
      Bool.false_and]
  have hwc := bigText_word_count
  have hempty : (wordMatches bigText).isEmpty = false := by
    by_cases hE : (wordMatches bigText).isEmpty = true
    · exfalso
      have := List.isEmpty_iff_length_eq_zero.mp hE
      omega
    · simpa using hE
  unfold paginateDocument
  by_cases h1 : bigText.all isWs = true
  · rw [hall] at h1
    exact absurd h1 (by simp)
  · rw [if_neg h1]
    by_cases h2 : (wordMatches bigText).isEmpty = true
    · rw [hempty] at h2
      exact absurd h2 (by simp)
    · simp only [h2, Bool.false_eq_true, if_neg, not_false_iff]
      exact paginateLoopF_length_eq bigText (wordMatches bigText) 10001 0 0 (by omega)
        (by omega)

/-- C9 counterexample: the 5 000 501-word document makes `paginateDocument`
return 10 001 pages, one more than the stated ceiling (the guard runs after
the push of the page that exceeds it). -/
theorem C9_counterexample : ¬ C9Claim bigText := by
  unfold C9Claim
  rw [paginateDocument_bigText_length]
  omega

/-- Claim C9 amended: both pagination strategies stop at the ceiling, but
because the guard fires after pushing the offending page, the true bound is
10 001 pages, not 10 000. -/
theorem C9_amended (text : List Char) (measure : List Char → Int)
    (dims : PageDimensions) (est maxIter : Nat) :
    (paginateDocument text).length ≤ 10001 ∧
    (adaptiveParseDocument measure dims est maxIter text).length ≤ 10001 := by
  constructor
  · unfold paginateDocument
    by_cases h1 : text.all isWs = true
    · rw [if_pos h1]; simp
    · rw [if_neg h1]
      by_cases h2 : (wordMatches text).isEmpty = true
      · simp only [h2, if_pos]; simp
      · simp only [h2, Bool.false_eq_true, if_neg, not_false_iff]
        exact paginateLoopF_length_le _ _ 10001 0 0
  · unfold adaptiveParseDocument
    by_cases h1 : text.all isWs = true
    · rw [if_pos h1]; simp
    · rw [if_neg h1]
      by_cases h2 : (wordMatches text).isEmpty = true
      · simp only [h2, if_pos]; simp
      · simp only [h2, Bool.false_eq_true, if_neg, not_false_iff]
        have := adaptiveLoop_length_le measure dims est maxIter text
          text.length 0 0 (by omega) (by omega)
        omega

/-! ### Claims C6 and C7 -/

/-- C6: every page emitted by `paginateDocument` has a positive word count,
equal to the base target of 500 reduced by 100 per image detected by the
look-ahead scan of the candidate span, floored at 50 and capped only by the
words remaining in the document (from the word index the page starts at). -/
theorem C6_confirmed (text : List Char) (p : DocumentPage)
    (hp : p ∈ paginateDocument text) :
    0 < p.wordCount ∧ ∃ j, j < (wordMatches text).length ∧
      p.startOffset = ((wordMatches text).getD j (0, [])).1 ∧
      p.wordCount = min (max 50 (500 -
        countImages (lookAheadText text (wordMatches text) j) * 100))
        ((wordMatches text).length - j) := by
  obtain ⟨-, -, -, -, hcount, hform⟩ := paginateDocument_props text
  exact ⟨(hcount p hp).2.1, hform p hp⟩

/-- C6 witness: the single page of the two-word document. -/
theorem C6_confirmed_witness :
    (⟨"hello world".data, 2, 0, 11, 0, some [], none⟩ : DocumentPage)
      ∈ paginateDocument "hello world".data ∧
    (0 < (⟨"hello world".data, 2, 0, 11, 0, some [], none⟩ : DocumentPage).wordCount ∧
     ∃ j, j < (wordMatches "hello world".data).length ∧
      (⟨"hello world".data, 2, 0, 11, 0, some [], none⟩ : DocumentPage).startOffset
        = ((wordMatches "hello world".data).getD j (0, [])).1 ∧
      (⟨"hello world".data, 2, 0, 11, 0, some [], none⟩ : DocumentPage).wordCount
        = min (max 50 (500 - countImages (lookAheadText "hello world".data
            (wordMatches "hello world".data) j) * 100))
          ((wordMatches "hello world".data).length - j)) :=
  ⟨by decide, C6_confirmed "hello world".data
    ⟨"hello world".data, 2, 0, 11, 0, some [], none⟩ (by decide)⟩

/-- C7: for every document, measurement oracle, estimate and iteration cap,
the adaptive per-page search terminates with a result whose measurement is
the oracle's measurement of its content, and either that content fits the
available page height or the result is the minimum-viable fallback of 10
words (fewer only if fewer words remain); it never aborts while a word
remains at or past the start index. -/
theorem C7_confirmed (measure : List Char → Int) (dims : PageDimensions)
    (text : List Char) (si est maxIter : Nat)
    (hsi : si < (wordMatches text).length) :
    ∃ r, findOptimalWordCount measure dims text (wordMatches text) si est maxIter
        = some r ∧
      TryOk measure text (wordMatches text) si r ∧
      (doesContentFit r.measurement dims = true ∨
        r.wordCount = min 10 ((wordMatches text).length - si)) :=
  findOptimalWordCount_spec measure dims text (wordMatches text) si est maxIter hsi

/-- C7 witness: a constant-zero measurement oracle on a two-word document. -/
theorem C7_confirmed_witness :
    0 < (wordMatches "a b".data).length ∧
    (∃ r, findOptimalWordCount (fun _ => 0) ⟨100, 100, 0, 0, 10⟩ "a b".data
        (wordMatches "a b".data) 0 50 10 = some r ∧
      TryOk (fun _ => 0) "a b".data (wordMatches "a b".data) 0 r ∧
      (doesContentFit r.measurement ⟨100, 100, 0, 0, 10⟩ = true ∨
        r.wordCount = min 10 ((wordMatches "a b".data).length - 0))) :=
  ⟨by decide, C7_confirmed (fun _ => 0) ⟨100, 100, 0, 0, 10⟩ "a b".data 0 50 10
    (by decide)⟩

/-! ## `src/utils/documentParser.ts`: callouts, flags, stacks and numbering

`String.prototype.toUpperCase`/`toLowerCase` are modelled on the ASCII
range, which covers every string the parser compares (flag types and callout
types are matched against ASCII tables). -/

def toUpperC (c : Char) : Char :=
  if 'a' ≤ c ∧ c ≤ 'z' then Char.ofNat (c.toNat - 32) else c

def toLowerC (c : Char) : Char :=
  if 'A' ≤ c ∧ c ≤ 'Z' then Char.ofNat (c.toNat + 32) else c

/-- `String.prototype.startsWith`. -/
def startsWithB : List Char → List Char → Bool
  | [], _ => true
  | _ :: _, [] => false
  | c :: p, d :: s2 => c = d && startsWithB p s2

/-- `getFlagColor` from `src/flags/flagColors.ts`: the type is upper-cased,
looked up in the default flag-colour map, and falls back to the NOTE colour
for unknown types. -/
def getFlagColor (ty : List Char) : List Char :=
  let normalized := ty.map toUpperC
  if normalized = "TODO".data then "#ffd700".data
  else if normalized = "NOW".data then "#ff4444".data
  else if normalized = "DONE".data then "#44ff44".data
  else if normalized = "WAITING".data then "#ff9944".data
  else if normalized = "NOTE".data then "#4488ff".data
  else if normalized = "IMPORTANT".data then "#ff44ff".data
  else if normalized = "COMMENT".data then "#888888".data
  else if normalized = "MISSING".data then "#ff4444".data
  else "#4488ff".data

/-- `getCalloutColor` from `src/utils/documentParser.ts`: lower-cased lookup
in Obsidian's default callout colour scheme, defaulting to blue. -/
def getCalloutColor (ty : List Char) : List Char :=
  let t := ty.map toLowerC
  if t = "bug".data then "rgb(233, 49, 71)".data
  else if t = "default".data then "rgb(8, 109, 221)".data
  else if t = "error".data then "rgb(233, 49, 71)".data
  else if t = "fail".data then "rgb(233, 49, 71)".data
  else if t = "example".data then "rgb(120, 82, 238)".data
  else if t = "important".data then "rgb(0, 191, 188)".data
  else if t = "info".data then "rgb(8, 109, 221)".data
  else if t = "question".data then "rgb(236, 117, 0)".data
  else if t = "help".data then "rgb(236, 117, 0)".data
  else if t = "faq".data then "rgb(236, 117, 0)".data
  else if t = "success".data then "rgb(8, 185, 78)".data
  else if t = "check".data then "rgb(8, 185, 78)".data
  else if t = "done".data then "rgb(8, 185, 78)".data
  else if t = "summary".data then "rgb(0, 191, 188)".data
  else if t = "abstract".data then "rgb(0, 191, 188)".data
  else if t = "tldr".data then "rgb(0, 191, 188)".data
  else if t = "tip".data then "rgb(0, 191, 188)".data
  else if t = "hint".data then "rgb(0, 191, 188)".data
  else if t = "todo".data then "rgb(8, 109, 221)".data
  else if t = "warning".data then "rgb(236, 117, 0)".data
  else if t = "caution".data then "rgb(236, 117, 0)".data
  else if t = "attention".data then "rgb(236, 117, 0)".data
  else if t = "danger".data then "rgb(233, 49, 71)".data
  else if t = "note".data then "rgb(8, 109, 221)".data
  else if t = "quote".data then "rgb(120, 82, 238)".data
  else if t = "cite".data then "rgb(120, 82, 238)".data
  else "rgb(8, 109, 221)".data

/-- One attempt of `/^>\s*\[!([^\]]+)\]([+-]?)\s*(.*)$/` at a line start:
every quantified piece is followed by a character its class excludes, so
greedy maximal munch is exact; the trailing `\s*(.*)$` always succeeds.
Returns the captures `([^\]]+)` and `(.*)`. -/
def matchCalloutAt (s : List Char) : Option (List Char × List Char) :=
  match s with
  | '>' :: r1 =>
    match r1.dropWhile isWs with
    | '[' :: '!' :: r3 =>
      let g1 := r3.takeWhile (fun c => c ≠ ']')
      if g1.isEmpty then none
      else
        match r3.dropWhile (fun c => c ≠ ']') with
        | ']' :: r5 =>
          let r6 := match r5 with
            | '+' :: t => t
            | '-' :: t => t
            | t => t
          let g3 := (r6.dropWhile isWs).takeWhile (fun c => !(isLineTerm c))
          some (g1, g3)
        | _ => none
    | _ => none
  | _ => none

/-- The `m`-flagged search of the callout pattern: positions are tried left
to right, `^` holding at offset 0 and right after a line terminator. -/
def calloutScanGo : List Char → Bool → Option (List Char × List Char)
  | [], _ => none
  | c :: rest, lineStart =>
    if lineStart then
      match matchCalloutAt (c :: rest) with
      | some g => some g
      | none => calloutScanGo rest (isLineTerm c)
    else calloutScanGo rest (isLineTerm c)

/-- `str.charAt(0).toUpperCase() + str.slice(1)`. -/
def capitalizeL : List Char → List Char
  | [] => []
  | c :: r => toUpperC c :: r

/-- `parseCallout` from `src/utils/documentParser.ts`. -/
def parseCallout (text : List Char) (startOffset : Nat) : Option DocumentCallout :=
  match calloutScanGo text true with
  | none => none
  | some (g1, g3) =>
    let ty := trimL g1
    let t3 := trimL g3
    let title := if t3.isEmpty then capitalizeL ty else t3
    some { type := ty, title := title, color := getCalloutColor ty,
           startOffset := startOffset }

/-- `parseHeadingsWithCallouts` from `src/utils/documentParser.ts`: for each
heading-regex match, the lookahead `/^\n*([^\n]*)/` captures the first line
after the heading past completely empty lines; a callout is parsed from that
line (trimmed) when it starts with the callout opener. -/
def headingNextLine (content : List Char) (tok : Nat × Nat) : List Char :=
  trimL (((content.drop (tok.1 + tok.2)).dropWhile (fun c => c = '\n')).takeWhile
    (fun c => c ≠ '\n'))

def parseHeadingsWithCallouts (content : List Char) (startOffset : Nat) :
    List DocumentHeading :=
  (findHeadingTokens content).map fun tok =>
    let m := sliceL content tok.1 (tok.1 + tok.2)
    let headingOffset := startOffset + tok.1
    let nextLine := headingNextLine content tok
    let callout :=
      if nextLine.isEmpty then none
      else if startsWithB "> [!".data nextLine then
        parseCallout nextLine headingOffset
      else none
    { level := headingLevel m, text := headingText m,
      startOffset := headingOffset, callout := callout }

/-- One attempt of `/==([A-Za-z][A-Za-z0-9_-]{1,24}):\s*([^=]+)==/` at a
position: the identifier run backtracks to nothing (every shorter prefix is
still followed by an identifier character, never `:`), so the full run must
be 1–24 long; `\s*` yields at most one trailing whitespace character back to
`([^=]+)`, which must otherwise run to the next `=`.  Returns the match
length and the two captures. -/
def matchFlagAt : List Char → Option (Nat × List Char × List Char)
  | '=' :: '=' :: r =>
    match r with
    | c :: r2 =>
      if isLetter c then
        let t := r2.takeWhile isFlagIdChar
        if 1 ≤ t.length ∧ t.length ≤ 24 then
          match r2.drop t.length with
          | ':' :: r4 =>
            let N := (r4.takeWhile (fun x => x ≠ '=')).length
            let W := (r4.takeWhile isWs).length
            if 1 ≤ N then
              match r4.drop N with
              | '=' :: '=' :: _ =>
                some (2 + 1 + t.length + 1 + N + 2, c :: t,
                  sliceL r4 (min W (N - 1)) N)
              | _ => none
            else none
          | _ => none
        else none
      else none
    | [] => none
  | _ => none

/-- Global scan of the flag pattern; `skip` counts positions still covered by
the previous match (`lastIndex`). -/
def flagScanGo : List Char → Nat → Nat → List (Nat × Nat × List Char × List Char)
  | [], _, _ => []
  | c :: rest, pos, skip =>
    match skip with
    | Nat.succ k => flagScanGo rest (pos + 1) k
    | 0 =>
      match matchFlagAt (c :: rest) with
      | some (len, ty, msg) => (pos, len, ty, msg) :: flagScanGo rest (pos + 1) (len - 1)
      | none => flagScanGo rest (pos + 1) 0

/-- One attempt of `/%%([^%]+)%%/` at a position. -/
def matchCommentAt : List Char → Option (Nat × List Char)
  | '%' :: '%' :: r =>
    let N := (r.takeWhile (fun x => x ≠ '%')).length
    if 1 ≤ N then
      match r.drop N with
      | '%' :: '%' :: _ => some (2 + N + 2, r.take N)
      | _ => none
    else none
  | _ => none

/-- Global scan of the comment pattern. -/
def commentScanGo : List Char → Nat → Nat → List (Nat × Nat × List Char)
  | [], _, _ => []
  | c :: rest, pos, skip =>
    match skip with
    | Nat.succ k => commentScanGo rest (pos + 1) k
    | 0 =>
      match matchCommentAt (c :: rest) with
      | some (len, msg) => (pos, len, msg) :: commentScanGo rest (pos + 1) (len - 1)
      | none => commentScanGo rest (pos + 1) 0

/-- `content.lastIndexOf("\n", i)`. -/
def lastNlLE (content : List Char) (i : Nat) : Option Nat :=
  let pre := (content.take (i + 1)).reverse
  match findIdxQ (fun c => c = '\n') pre with
  | none => none
  | some k => some (pre.length - 1 - k)

/-- `content.indexOf("\n", i)`. -/
def firstNlFrom (content : List Char) (i : Nat) : Option Nat :=
  match findIdxQ (fun c => c = '\n') (content.drop i) with
  | none => none
  | some k => some (i + k)

/-- The `lineText` computation of `parseFlags`: the trimmed line that hosts
the match at `idx` of length `len`. -/
def flagLineText (content : List Char) (idx len : Nat) : List Char :=
  let a := match lastNlLE content idx with
    | none => 0
    | some j => j + 1
  let b := match firstNlFrom content (idx + len) with
    | none => content.length
    | some j => j
  trimL (sliceL content a b)

/-- `parseFlags` from `src/utils/documentParser.ts`: all flag-pattern matches
first, then all comment-pattern matches. -/
def parseFlags (content : List Char) (baseOffset : Nat) : List DocumentFlag :=
  let fl := (flagScanGo content 0 0).map fun q =>
    { type := q.2.2.1, message := trimL q.2.2.2, startOffset := baseOffset + q.1,
      color := getFlagColor q.2.2.1, lineText := flagLineText content q.1 q.2.1 :
      DocumentFlag }
  let cm := (commentScanGo content 0 0).map fun q =>
    { type := "COMMENT".data, message := trimL q.2.2,
      startOffset := baseOffset + q.1, color := getFlagColor "COMMENT".data,
      lineText := flagLineText content q.1 q.2.1 : DocumentFlag }
  fl ++ cm

/-- `Map.set`: replace the value under an existing key, else append. -/
def setAssoc {β : Type} : List (Nat × β) → Nat → β → List (Nat × β)
  | [], k, v => [(k, v)]
  | (k0, v0) :: rest, k, v =>
    if k0 = k then (k0, v) :: rest else (k0, v0) :: setAssoc rest k v

/-- The heading loop of `computeHeadingCalloutStacks`: drop stack entries at
the current heading's level or deeper, push the heading's callout colour if
present, then snapshot the colours keyed by the heading's offset. -/
def chcsGo : List DocumentHeading → List (Nat × List Char) →
    List (Nat × List (List Char)) → List (Nat × List (List Char))
  | [], _, m => m
  | h :: rest, stack, m =>
    let s1 := stack.filter (fun c => c.1 < h.level)
    let s2 := match h.callout with
      | some co => s1 ++ [(h.level, co.color)]
      | none => s1
    chcsGo rest s2 (setAssoc m h.startOffset (s2.map Prod.snd))

/-- `computeHeadingCalloutStacks` from `src/utils/documentParser.ts`. -/
def computeHeadingCalloutStacks (pages : List DocumentPage) :
    List (Nat × List (List Char)) :=
  chcsGo ((pages.map fun p => p.headings.getD []).flatten) [] []

/-- The heading loop of `computeHeadingNumbers`
(`src/ui/miniMapRenderer.ts`, lines 617–643): six counters, the current
level's counter bumped, deeper counters reset, zero counters skipped when the
dotted number is joined. -/
def chnGo : List DocumentHeading → List Nat → List (Nat × List Char) →
    List (Nat × List Char)
  | [], _, m => m
  | h :: rest, counters, m =>
    let level := min (max h.level 1) 6
    let index := level - 1
    let bumped := counters.set index (counters.getD index 0 + 1)
    let counters2 := bumped.take (index + 1) ++ List.replicate (5 - index) 0
    let parts := ((counters2.take (index + 1)).filter (fun x => x ≠ 0)).map
      (fun n => (Nat.repr n).data)
    chnGo rest counters2 (setAssoc m h.startOffset (List.intercalate ['.'] parts))

/-- `computeHeadingNumbers` from `src/ui/miniMapRenderer.ts`. -/
def computeHeadingNumbers (pages : List DocumentPage) : List (Nat × List Char) :=
  chnGo ((pages.map fun p => p.headings.getD []).flatten) [0, 0, 0, 0, 0, 0] []

/-! ### Claims C3, C4, C5, C8 and C10 -/

/-- C3: the section-stack builder pops every entry at the current heading's
level or deeper, pushes the heading's marker if present, and snapshots the
stack by value; for H1 with marker A, H2 with marker B and a sibling H2 with
marker C the stored stacks are [A], [A,B], [A,C]. -/
theorem C3_confirmed (t1 t2 t3 : List Char) (o1 o2 o3 : Nat)
    (A B C : DocumentCallout)
    (h12 : o1 ≠ o2) (h13 : o1 ≠ o3) (h23 : o2 ≠ o3) :
    computeHeadingCalloutStacks [⟨[], 0, 0, 0, 0,
      some [⟨1, t1, o1, some A⟩, ⟨2, t2, o2, some B⟩, ⟨2, t3, o3, some C⟩], none⟩]
    = [(o1, [A.color]), (o2, [A.color, B.color]), (o3, [A.color, C.color])] := by
  simp [computeHeadingCalloutStacks, chcsGo, setAssoc, h12, h13, h23]

/-- C3 witness: three concrete headings at offsets 0, 1, 2. -/
theorem C3_confirmed_witness :
    (0 : Nat) ≠ 1 ∧ (0 : Nat) ≠ 2 ∧ (1 : Nat) ≠ 2 ∧
    computeHeadingCalloutStacks [⟨[], 0, 0, 0, 0,
      some [⟨1, "X".data, 0, some ⟨"note".data, "N".data, "a".data, 0⟩⟩,
            ⟨2, "Y".data, 1, some ⟨"tip".data, "T".data, "b".data, 1⟩⟩,
            ⟨2, "Z".data, 2, some ⟨"bug".data, "B".data, "c".data, 2⟩⟩], none⟩]
    = [(0, ["a".data]), (1, ["a".data, "b".data]), (2, ["a".data, "c".data])] :=
  ⟨by decide, by decide, by decide,
    C3_confirmed "X".data "Y".data "Z".data 0 1 2
      ⟨"note".data, "N".data, "a".data, 0⟩ ⟨"tip".data, "T".data, "b".data, 1⟩
      ⟨"bug".data, "B".data, "c".data, 2⟩ (by decide) (by decide) (by decide)⟩

/-- C4: the four annotation-parsing examples, including the pipe kept whole
inside a message and the rejection of a type identifier that starts with a
digit. -/
theorem C4_confirmed :
    (parseFlags "==TODO: Buy milk==".data 0).map (fun f => (f.type, f.message))
      = [("TODO".data, "Buy milk".data)] ∧
    (parseFlags "==TODO: short | long form==".data 0).map (fun f => (f.type, f.message))
      = [("TODO".data, "short | long form".data)] ∧
    (parseFlags "%% just a note %%".data 0).map (fun f => (f.type, f.message))
      = [("COMMENT".data, "just a note".data)] ∧
    parseFlags "==3x: oops==".data 0 = [] := by decide

/-- The end-to-end example document of claim C5. -/
def ex5 : List Char :=
  "# Title\n\nBody.\n\n> [!note] Info\n## Sub\nWork ==TODO: fix==.".data

/-- Claim C5 as stated: two headings Title/Sub, the second carrying a
note/Info marker, and one TODO annotation. -/
def C5Claim : Prop :=
  (parseHeadingsWithCallouts ex5 0).map (fun h => (h.level, h.text)) =
    [(1, "Title".data), (2, "Sub".data)] ∧
  (∃ h ∈ parseHeadingsWithCallouts ex5 0,
    (h.callout.map fun c => (c.type, c.title)) = some ("note".data, "Info".data)) ∧
  (parseFlags ex5 0).map (fun f => (f.type, f.message)) =
    [("TODO".data, "fix".data)]

instance : Decidable C5Claim := by
  unfold C5Claim
  infer_instance

/-- C5 counterexample: no heading of the example document carries the
note/Info marker, because the callout line precedes `## Sub` and the parser
only inspects the line following a heading. -/
theorem C5_counterexample : ¬ C5Claim := by decide

/-- C5 amended: the example parses to headings Title and Sub, both without a
marker (the callout line precedes `## Sub` instead of following it, so it is
not attached), and exactly one TODO/fix annotation. -/
theorem C5_amended :
    (parseHeadingsWithCallouts ex5 0).map (fun h => (h.level, h.text, h.callout)) =
      [(1, "Title".data, none), (2, "Sub".data, none)] ∧
    (parseFlags ex5 0).map (fun f => (f.type, f.message)) =
      [("TODO".data, "fix".data)] := by decide

/-- C8: the heading level sequence [1,2,2,1] is numbered
"1", "1.1", "1.2", "2": a repeated level increments its own counter and
resets the deeper ones, and a shallower heading restarts numbering. -/
theorem C8_confirmed :
    computeHeadingNumbers [⟨[], 0, 0, 0, 0,
      some [⟨1, "A".data, 0, none⟩, ⟨2, "B".data, 10, none⟩,
            ⟨2, "C".data, 20, none⟩, ⟨1, "D".data, 30, none⟩], none⟩]
    = [(0, "1".data), (10, "1.1".data), (20, "1.2".data), (30, "2".data)] := by
  decide

theorem getD_map_lt {α β : Type} (f : α → β) (l : List α) (k : Nat) (d : β) (d0 : α)
    (h : k < l.length) : (l.map f).getD k d = f (l.getD k d0) := by
  induction l generalizing k with
  | nil => simp at h
  | cons x xs ih =>
    rcases k with - | k
    · simp [List.getD]
    · simp only [List.map_cons, List.getD_cons_succ]
      exact ih k (by simpa using h)

/-- `parseCallout` stamps the offset it is given, not an offset computed
from its own text. -/
theorem parseCallout_startOffset (t : List Char) (off : Nat) (c : DocumentCallout)
    (h : parseCallout t off = some c) : c.startOffset = off := by
  unfold parseCallout at h
  rcases hscan : calloutScanGo t true with - | g
  · rw [hscan] at h; simp at h
  · rcases g with ⟨g1, g3⟩
    rw [hscan] at h
    dsimp only at h
    injection h with h
    subst h
    rfl

/-- The `k`-th heading produced by `parseHeadingsWithCallouts`, written out. -/
theorem parseHWC_getD (content : List Char) (so k : Nat)
    (hk : k < (findHeadingTokens content).length) :
    (parseHeadingsWithCallouts content so).getD k ⟨0, [], 0, none⟩ =
    { level := headingLevel (sliceL content ((findHeadingTokens content).getD k (0, 0)).1 (((findHeadingTokens content).getD k (0, 0)).1 + ((findHeadingTokens content).getD k (0, 0)).2)),
      text := headingText (sliceL content ((findHeadingTokens content).getD k (0, 0)).1 (((findHeadingTokens content).getD k (0, 0)).1 + ((findHeadingTokens content).getD k (0, 0)).2)),
      startOffset := so + ((findHeadingTokens content).getD k (0, 0)).1,
      callout :=
        if (headingNextLine content ((findHeadingTokens content).getD k (0, 0))).isEmpty then none
        else if startsWithB "> [!".data (headingNextLine content ((findHeadingTokens content).getD k (0, 0))) then parseCallout (headingNextLine content ((findHeadingTokens content).getD k (0, 0))) (so + ((findHeadingTokens content).getD k (0, 0)).1)
        else none } := by
  unfold parseHeadingsWithCallouts
  rw [getD_map_lt _ _ _ _ (0, 0) hk]

/-- Claim C10 as stated: a heading's marker carries the heading's own start
offset, and a marker is attached exactly when the first line after the
heading (skipping completely empty lines, trimmed) starts with the callout
opener. -/
def C10Claim (content : List Char) (so : Nat) : Prop :=
  ∀ k, k < (findHeadingTokens content).length →
    ((((parseHeadingsWithCallouts content so).getD k ⟨0, [], 0, none⟩).callout.map fun c => c.startOffset).getD ((parseHeadingsWithCallouts content so).getD k ⟨0, [], 0, none⟩).startOffset
      = ((parseHeadingsWithCallouts content so).getD k ⟨0, [], 0, none⟩).startOffset) ∧
    (((parseHeadingsWithCallouts content so).getD k ⟨0, [], 0, none⟩).callout.isSome = true ↔
      startsWithB "> [!".data (headingNextLine content ((findHeadingTokens content).getD k (0, 0))) = true)

instance (content : List Char) (so : Nat) : Decidable (C10Claim content so) := by
  unfold C10Claim
  infer_instance

/-- C10 counterexample: after the heading `# T` the next line `> [!]` starts
with the callout opener, yet no marker is attached, because the callout
regex requires a non-empty type between `[!` and `]`. -/
theorem C10_counterexample : ¬ C10Claim "# T\n> [!]".data 0 := by decide

/-- C10 amended: the marker's start offset is always the heading's own
offset, and a marker is attached exactly when the first line after the
heading (skipping completely empty lines, trimmed) starts with the callout
opener AND parses as a callout (a non-empty type between `[!` and `]`). -/
theorem C10_amended (content : List Char) (so k : Nat)
    (hk : k < (findHeadingTokens content).length) :
    ((((parseHeadingsWithCallouts content so).getD k ⟨0, [], 0, none⟩).callout.map fun c => c.startOffset).getD ((parseHeadingsWithCallouts content so).getD k ⟨0, [], 0, none⟩).startOffset
      = ((parseHeadingsWithCallouts content so).getD k ⟨0, [], 0, none⟩).startOffset) ∧
    (((parseHeadingsWithCallouts content so).getD k ⟨0, [], 0, none⟩).callout.isSome = true ↔
      (startsWithB "> [!".data (headingNextLine content ((findHeadingTokens content).getD k (0, 0))) = true ∧
       (parseCallout (headingNextLine content ((findHeadingTokens content).getD k (0, 0))) (so + ((findHeadingTokens content).getD k (0, 0)).1)).isSome = true)) := by
  rw [parseHWC_getD content so k hk]
  show (((if (headingNextLine content ((findHeadingTokens content).getD k (0, 0))).isEmpty then none
      else if startsWithB "> [!".data (headingNextLine content ((findHeadingTokens content).getD k (0, 0))) then parseCallout (headingNextLine content ((findHeadingTokens content).getD k (0, 0))) (so + ((findHeadingTokens content).getD k (0, 0)).1)
      else none).map fun c => c.startOffset).getD (so + ((findHeadingTokens content).getD k (0, 0)).1) = so + ((findHeadingTokens content).getD k (0, 0)).1) ∧
    ((if (headingNextLine content ((findHeadingTokens content).getD k (0, 0))).isEmpty then none
      else if startsWithB "> [!".data (headingNextLine content ((findHeadingTokens content).getD k (0, 0))) then parseCallout (headingNextLine content ((findHeadingTokens content).getD k (0, 0))) (so + ((findHeadingTokens content).getD k (0, 0)).1)
      else none).isSome = true ↔
      (startsWithB "> [!".data (headingNextLine content ((findHeadingTokens content).getD k (0, 0))) = true ∧
       (parseCallout (headingNextLine content ((findHeadingTokens content).getD k (0, 0))) (so + ((findHeadingTokens content).getD k (0, 0)).1)).isSome = true))
  by_cases hE : (headingNextLine content ((findHeadingTokens content).getD k (0, 0))).isEmpty = true
  · rw [if_pos hE]
    have hnil : (headingNextLine content ((findHeadingTokens content).getD k (0, 0))) = [] := by
      rwa [List.isEmpty_iff] at hE
    constructor
    · rfl
    · constructor
      · intro h0
        exact absurd h0 (by simp)
      · rintro ⟨hsw, -⟩
        rw [hnil] at hsw
        exact absurd hsw (by decide)
  · rw [if_neg hE]
    by_cases hP : startsWithB "> [!".data (headingNextLine content ((findHeadingTokens content).getD k (0, 0))) = true
    · rw [if_pos hP]
      constructor
      · rcases hpc : parseCallout (headingNextLine content ((findHeadingTokens content).getD k (0, 0))) (so + ((findHeadingTokens content).getD k (0, 0)).1) with - | c
        · rfl
        · simp only [Option.map_some', Option.getD_some]
          exact parseCallout_startOffset _ _ c hpc
      · constructor
        · intro hs
          exact ⟨hP, hs⟩
        · rintro ⟨-, hs⟩
          exact hs
    · rw [if_neg hP]
      constructor
      · rfl
      · constructor
        · intro h0
          exact absurd h0 (by simp)
        · rintro ⟨hsw, -⟩
          exact absurd hsw hP

/-- C10 witness: the document `# T` followed by a well-formed note callout. -/
theorem C10_amended_witness :
    0 < (findHeadingTokens "# T\n> [!note] Hi".data).length ∧
    (((((parseHeadingsWithCallouts "# T\n> [!note] Hi".data 0).getD 0 ⟨0, [], 0, none⟩).callout.map fun c => c.startOffset).getD ((parseHeadingsWithCallouts "# T\n> [!note] Hi".data 0).getD 0 ⟨0, [], 0, none⟩).startOffset
      = ((parseHeadingsWithCallouts "# T\n> [!note] Hi".data 0).getD 0 ⟨0, [], 0, none⟩).startOffset) ∧
    (((parseHeadingsWithCallouts "# T\n> [!note] Hi".data 0).getD 0 ⟨0, [], 0, none⟩).callout.isSome = true ↔
      (startsWithB "> [!".data (headingNextLine "# T\n> [!note] Hi".data ((findHeadingTokens "# T\n> [!note] Hi".data).getD 0 (0, 0))) = true ∧
       (parseCallout (headingNextLine "# T\n> [!note] Hi".data ((findHeadingTokens "# T\n> [!note] Hi".data).getD 0 (0, 0))) (0 + ((findHeadingTokens "# T\n> [!note] Hi".data).getD 0 (0, 0)).1)).isSome = true))) :=
  ⟨by decide, C10_amended "# T\n> [!note] Hi".data 0 0 (by decide)⟩

/-! ## `src/ui/miniMapRenderer.ts`: the fragment tokenizer (claim C2) -/

/-- The fragment stream emitted by `tokenizeContent`. -/
inductive ContentFragment where
  | text (text : List Char) (startOffset : Nat)
  | image (alt : List Char) (link : List Char) (startOffset : Nat)
  | heading (h : DocumentHeading)
  | flag (f : DocumentFlag)
deriving DecidableEq

/-- The offset a fragment points at (`startOffset` for text and image
fragments, the carried item's own offset for heading and flag fragments). -/
def fragOffset : ContentFragment → Nat
  | .text _ o => o
  | .image _ _ o => o
  | .heading h => h.startOffset
  | .flag f => f.startOffset

/-- `replace(/\r\n/g, "\n")`. -/
def replCRLF : List Char → List Char
  | '\r' :: '\n' :: rest => '\n' :: replCRLF rest
  | c :: rest => c :: replCRLF rest
  | [] => []

/-- `split(/\n+/)`: a run of newlines separates segments; `inSep` records
that the previous character belonged to a separator run. -/
def splitNlGo : List Char → List Char → Bool → List (List Char)
  | [], acc, _ => [acc.reverse]
  | c :: rest, acc, inSep =>
    if c = '\n' then
      if inSep then splitNlGo rest [] true
      else acc.reverse :: splitNlGo rest [] true
    else splitNlGo rest (c :: acc) false

/-- `replace(/^#{1,6}\s+/g, "")`: anchored at the string start, so at most
the leading hashes-plus-whitespace are removed. -/
def stripLeadHashes (l : List Char) : List Char :=
  let hs := l.takeWhile (fun c => c = '#')
  if 1 ≤ hs.length ∧ hs.length ≤ 6 then
    let r := l.drop hs.length
    let ws := r.takeWhile isWs
    if 1 ≤ ws.length then r.drop ws.length else l
  else l

/-- A single-character-wrapped span `d([^d]+)d`, replaced by the capture. -/
def mWrap1 (d : Char) : List Char → Option (Nat × List Char)
  | c :: r =>
    if c = d then
      let N := (r.takeWhile (fun x => x ≠ d)).length
      if 1 ≤ N then
        match r.drop N with
        | e :: _ => if e = d then some (N + 2, r.take N) else none
        | [] => none
      else none
    else none
  | [] => none

/-- A double-character-wrapped span `dd([^d]+)dd`. -/
def mWrap2 (d : Char) : List Char → Option (Nat × List Char)
  | a :: b :: r =>
    if a = d ∧ b = d then
      let N := (r.takeWhile (fun x => x ≠ d)).length
      if 1 ≤ N then
        match r.drop N with
        | e :: f :: _ => if e = d ∧ f = d then some (N + 4, r.take N) else none
        | _ => none
      else none
    else none
  | _ => none

/-- Lazy scan for two adjacent characters with `.`-matchable characters
before them: the index of the first adjacent pair `a b`. -/
def lazyUntil2 (a b : Char) : List Char → Option Nat
  | x :: y :: r =>
    if x = a ∧ y = b then some 0
    else if isLineTerm x then none
    else (lazyUntil2 a b (y :: r)).map (· + 1)
  | _ => none

/-- Lazy scan for one character with `.`-matchable characters before it. -/
def lazyUntil1 (a : Char) : List Char → Option Nat
  | x :: r =>
    if x = a then some 0
    else if isLineTerm x then none
    else (lazyUntil1 a r).map (· + 1)
  | [] => none

/-- `/\[(.*?)\]\((.*?)\)/`, replaced by the first capture. -/
def mMdLink : List Char → Option (Nat × List Char)
  | '[' :: r =>
    match lazyUntil2 ']' '(' r with
    | none => none
    | some i =>
      match lazyUntil1 ')' (r.drop (i + 2)) with
      | none => none
      | some j => some (1 + i + 2 + j + 1, r.take i)
  | _ => none

/-- `/>\s*/`, removed. -/
def mGtWs : List Char → Option (Nat × List Char)
  | '>' :: r => some (1 + (r.takeWhile isWs).length, [])
  | _ => none

/-- `/\!\[[^\]]*\]\([^)]*\)/`, removed. -/
def mImgMd : List Char → Option (Nat × List Char)
  | '!' :: '[' :: r =>
    let N1 := (r.takeWhile (fun x => x ≠ ']')).length
    match r.drop N1 with
    | ']' :: '(' :: r2 =>
      let N2 := (r2.takeWhile (fun x => x ≠ ')')).length
      match r2.drop N2 with
      | ')' :: _ => some (2 + N1 + 2 + N2 + 1, [])
      | _ => none
    | _ => none
  | _ => none

/-- `/!\[\[[^\]]*\]\]/`, removed. -/
def mImgWiki : List Char → Option (Nat × List Char)
  | '!' :: '[' :: '[' :: r =>
    let N := (r.takeWhile (fun x => x ≠ ']')).length
    match r.drop N with
    | ']' :: ']' :: _ => some (3 + N + 2, [])
    | _ => none
  | _ => none

/-- `/==\w+:[^=]+==/`, removed (also the first alternative of the
flag-advance pattern in `tokenizeContent`). -/
def mFlagSimple : List Char → Option (Nat × List Char)
  | '=' :: '=' :: r =>
    let W := (r.takeWhile isWordChar).length
    if 1 ≤ W then
      match r.drop W with
      | ':' :: r2 =>
        let N := (r2.takeWhile (fun x => x ≠ '=')).length
        if 1 ≤ N then
          match r2.drop N with
          | '=' :: '=' :: _ => some (2 + W + 1 + N + 2, [])
          | _ => none
        else none
      | _ => none
    else none
  | _ => none

/-- `String.prototype.replace` with a `g` flag: every position is tried in
order; a match emits its replacement and the scan resumes after it. -/
def replaceGo (m : List Char → Option (Nat × List Char)) :
    List Char → Nat → List Char
  | [], _ => []
  | c :: rest, skip =>
    match skip with
    | Nat.succ k => replaceGo m rest k
    | 0 =>
      match m (c :: rest) with
      | some (len, repl) => repl ++ replaceGo m rest (len - 1)
      | none => c :: replaceGo m rest 0

def replaceAll (m : List Char → Option (Nat × List Char)) (s : List Char) :
    List Char :=
  replaceGo m s 0

/-- `sanitizeLine` from `src/ui/miniMapRenderer.ts`: the twelve sequential
replacements, then a trim. -/
def sanitizeLine (line : List Char) : List Char :=
  let s1 := stripLeadHashes line
  let s2 := replaceAll (mWrap1 '`') s1
  let s3 := replaceAll (mWrap2 '*') s2
  let s4 := replaceAll (mWrap1 '*') s3
  let s5 := replaceAll (mWrap1 '_') s4
  let s6 := replaceAll (mWrap2 '~') s5
  let s7 := replaceAll mMdLink s6
  let s8 := replaceAll mGtWs s7
  let s9 := replaceAll mImgMd s8
  let s10 := replaceAll mImgWiki s9
  let s11 := replaceAll mFlagSimple s10
  let s12 := replaceAll matchCommentAt' s11
  trimL s12
where
  matchCommentAt' (s : List Char) : Option (Nat × List Char) :=
    (matchCommentAt s).map fun p => (p.1, [])

/-- `tokenizeLines` from `src/ui/miniMapRenderer.ts`. -/
def tokenizeLines (text : List Char) : List (List Char) :=
  ((((splitNlGo (replCRLF text) [] false).map trimL).filter
      (fun l => !l.isEmpty && !startsWithB "#".data l)).map sanitizeLine).filter
    (fun l => !l.isEmpty)

/-- The `pushTextLines` closure of `extractTextAndImages`: nothing for a
whitespace-only piece, else one text fragment per tokenized line, all at the
piece's start offset. -/
def textFrags (text : List Char) (off : Nat) : List ContentFragment :=
  if (trimL text).isEmpty then []
  else (tokenizeLines text).map fun l => ContentFragment.text l off

/-- `parseMarkdownImageLink` from `src/ui/miniMapRenderer.ts`: the title
suffix `/\s+(".*"|'.*'|\(.*\))$/` is anchored at the end, so it is the
earliest whitespace run followed by a delimited span reaching the end. -/
def titleCheckAt (s : List Char) : Bool :=
  let w := (s.takeWhile isWs).length
  if 1 ≤ w then
    match s.drop w with
    | '"' :: r => checkToEnd r '"'
    | '\'' :: r => checkToEnd r '\''
    | '(' :: r => checkToEnd r ')'
    | _ => false
  else false
where
  checkToEnd (r : List Char) (d : Char) : Bool :=
    decide (1 ≤ r.length) && (r.getLastD ' ' = d) &&
      (r.take (r.length - 1)).all (fun c => !(isLineTerm c))

def titleScan : List Char → Option Nat
  | [] => none
  | c :: rest =>
    if titleCheckAt (c :: rest) then some 0 else (titleScan rest).map (· + 1)

def parseMarkdownImageLink (spec : List Char) : List Char :=
  let t0 := trimL spec
  let t1 :=
    if startsWithB "<".data t0 && (t0.getLastD ' ' = '>') then
      trimL ((t0.drop 1).take (t0.length - 2))
    else t0
  match titleScan t1 with
  | some i => trimL (t1.take i)
  | none => t1

/-- One attempt of the image regex
`/!\[([^\]]*)\]\(([^)]+)\)|!\[\[([^|\]]+)(?:\|([^\]]*))?\]\]/` at a
position; the first alternative is tried first.  Returns the match length,
the fragment's `alt` and its `link`. -/
def matchImageFull : List Char → Option (Nat × List Char × List Char)
  | '!' :: '[' :: r =>
    let g1 := r.takeWhile (fun x => x ≠ ']')
    let md :=
      match r.drop g1.length with
      | ']' :: '(' :: r3 =>
        let g2 := r3.takeWhile (fun x => x ≠ ')')
        if 1 ≤ g2.length then
          match r3.drop g2.length with
          | ')' :: _ =>
            some (2 + g1.length + 2 + g2.length + 1, g1, parseMarkdownImageLink g2)
          | _ => none
        else none
      | _ => none
    match md with
    | some res => some res
    | none =>
      match r with
      | '[' :: r4 =>
        let g3 := r4.takeWhile (fun x => x ≠ '|' ∧ x ≠ ']')
        if 1 ≤ g3.length then
          match r4.drop g3.length with
          | '|' :: r5 =>
            let g4 := r5.takeWhile (fun x => x ≠ ']')
            (match r5.drop g4.length with
            | ']' :: ']' :: _ =>
              let target := trimL g3
              let alt0 := trimL g4
              some (3 + g3.length + 1 + g4.length + 2,
                (if alt0.isEmpty then target else alt0), target)
            | _ => none)
          | ']' :: ']' :: _ =>
            let target := trimL g3
            some (3 + g3.length + 2, target, target)
          | _ => none
        else none
      | _ => none
  | _ => none

/-- Global scan of the image regex: `(index, length, alt, link)` of every
match, left to right, `skip` covering the previous match (`lastIndex`). -/
def imgScanGo : List Char → Nat → Nat → List (Nat × Nat × List Char × List Char)
  | [], _, _ => []
  | c :: rest, pos, skip =>
    match skip with
    | Nat.succ k => imgScanGo rest (pos + 1) k
    | 0 =>
      match matchImageFull (c :: rest) with
      | some (len, alt, link) =>
        (pos, len, alt, link) :: imgScanGo rest (pos + 1) (len - 1)
      | none => imgScanGo rest (pos + 1) 0

/-- The match loop of `extractTextAndImages`: text lines before each image
match, the image fragment, then the trailing text. -/
def extractGo (content : List Char) (segStart : Nat) :
    List (Nat × Nat × List Char × List Char) → Nat → List ContentFragment
  | [], lastIndex =>
    if lastIndex < content.length then
      textFrags (sliceL content lastIndex content.length) (segStart + lastIndex)
    else []
  | m :: rest, lastIndex =>
    (if lastIndex < m.1 then
      textFrags (sliceL content lastIndex m.1) (segStart + lastIndex)
    else []) ++
    ContentFragment.image m.2.2.1 m.2.2.2 (segStart + m.1) ::
      extractGo content segStart rest (m.1 + m.2.1)

/-- `extractTextAndImages` from `src/ui/miniMapRenderer.ts`. -/
def extractTextAndImages (content : List Char) (segStart : Nat) :
    List ContentFragment :=
  extractGo content segStart (imgScanGo content 0 0) 0

/-- `findHeadingLineEnd` from `src/ui/miniMapRenderer.ts`: past the next
newline and any immediately following newlines. -/
def findHeadingLineEnd (content : List Char) (rs : Nat) : Nat :=
  match firstNlFrom content rs with
  | none => content.length
  | some e => e + 1 + ((content.drop (e + 1)).takeWhile (fun c => c = '\n')).length

/-- The flag-advance of `tokenizeContent`: the length of the first match of
`/==\w+:[^=]+==|%%[^%]+%%/` anywhere in the suffix (the code adds the
length but not the match's index), or zero when there is none. -/
def flagAdvance : List Char → Nat
  | [] => 0
  | c :: rest =>
    match mFlagSimple (c :: rest) with
    | some p => p.1
    | none =>
      match matchCommentAt (c :: rest) with
      | some p => p.1
      | none => flagAdvance rest

/-- Stable insertion sort by a natural-number key (JS `Array.prototype.sort`
is stable): an element is inserted after every element with a key at most
its own. -/
def insSorted {α : Type} (key : α → Nat) (x : α) : List α → List α
  | [] => [x]
  | y :: ys => if key y ≤ key x then y :: insSorted key x ys else x :: y :: ys

def stableSortKey {α : Type} (key : α → Nat) (l : List α) : List α :=
  l.foldl (fun acc x => insSorted key x acc) []

/-- A special item of `tokenizeContent`: a heading or a flag. -/
def itemOffset : Sum DocumentHeading DocumentFlag → Nat
  | .inl h => h.startOffset
  | .inr f => f.startOffset

/-- The item loop of `tokenizeContent`: text (with images) before each item,
the item's fragment, the cursor advanced past the heading line or the flag
match. -/
def tcLoop (content : List Char) (base : Nat) :
    List (Sum DocumentHeading DocumentFlag) → Nat → List ContentFragment
  | [], cursor =>
    if cursor < content.length then
      extractTextAndImages (sliceL content cursor content.length) (base + cursor)
    else []
  | item :: rest, cursor =>
    let rs := itemOffset item - base
    let pre :=
      if cursor < rs then
        extractTextAndImages (sliceL content cursor rs) (base + cursor)
      else []
    match item with
    | .inl h =>
      pre ++ ContentFragment.heading h ::
        tcLoop content base rest (findHeadingLineEnd content rs)
    | .inr f =>
      pre ++ ContentFragment.flag f ::
        tcLoop content base rest (rs + flagAdvance (content.drop rs))

/-- `tokenizeContent` from `src/ui/miniMapRenderer.ts`. -/
def tokenizeContent (page : DocumentPage) : List ContentFragment :=
  let headings := stableSortKey (fun h => h.startOffset) (page.headings.getD [])
  let flags := stableSortKey (fun f => f.startOffset) (page.flags.getD [])
  let items := stableSortKey itemOffset
    ((headings.map Sum.inl) ++ (flags.map Sum.inr))
  tcLoop page.content page.startOffset items 0

/-- Non-decreasing list of naturals. -/
def nondecB : List Nat → Bool
  | [] => true
  | [_] => true
  | a :: b :: r => a ≤ b && nondecB (b :: r)

/-! ### Fragment-stream order: the C2 lemmas -/

theorem nondecB_cons_of_all (p : Nat) (l : List Nat) (hl : nondecB l = true)
    (hall : ∀ x ∈ l, p ≤ x) : nondecB (p :: l) = true := by
  cases l with
  | nil => rfl
  | cons a r =>
    show (decide (p ≤ a) && nondecB (a :: r)) = true
    rw [hl]
    simp [hall a (List.mem_cons_self _ _)]

theorem nondecB_tail (a : Nat) (l : List Nat) (h : nondecB (a :: l) = true) :
    nondecB l = true := by
  cases l with
  | nil => rfl
  | cons b r =>
    have h2 : (decide (a ≤ b) && nondecB (b :: r)) = true := h
    simp only [Bool.and_eq_true] at h2
    exact h2.2

theorem nondecB_append_cons (A : List Nat) (b : Nat) (B : List Nat)
    (hA : nondecB A = true) (hAb : ∀ a ∈ A, a ≤ b)
    (hB : nondecB (b :: B) = true) : nondecB (A ++ b :: B) = true := by
  induction A with
  | nil => simpa using hB
  | cons x xs ih =>
    have hxs : nondecB xs = true := nondecB_tail x xs hA
    have hx : ∀ a ∈ xs, a ≤ b := fun a ha => hAb a (List.mem_cons_of_mem _ ha)
    have htl := ih hxs hx
    cases xs with
    | nil =>
      show (decide (x ≤ b) && nondecB (b :: B)) = true
      simp [hAb x (List.mem_cons_self _ _), hB]
    | cons y ys =>
      have hxy : (decide (x ≤ y) && nondecB (y :: ys)) = true := hA
      show (decide (x ≤ y) && nondecB ((y :: ys) ++ b :: B)) = true
      simp only [Bool.and_eq_true] at hxy ⊢
      exact ⟨hxy.1, htl⟩

theorem nondecB_of_const (l : List Nat) (c : Nat) (h : ∀ x ∈ l, x = c) :
    nondecB l = true := by
  induction l with
  | nil => rfl
  | cons a r ih =>
    have ha : a = c := h a (List.mem_cons_self _ _)
    have hr := ih fun x hx => h x (List.mem_cons_of_mem _ hx)
    cases r with
    | nil => rfl
    | cons b s =>
      have hb : b = c := h b (List.mem_cons_of_mem _ (List.mem_cons_self _ _))
      rw [hb] at hr
      rw [ha, hb]
      show (decide (c ≤ c) && nondecB (c :: s)) = true
      simp [hr]

theorem textFrags_offset (t : List Char) (off : Nat) :
    ∀ fr ∈ textFrags t off, fragOffset fr = off := by
  intro fr hfr
  unfold textFrags at hfr
  split at hfr
  · simp at hfr
  · obtain ⟨l, -, hl⟩ := List.mem_map.mp hfr
    rw [← hl]
    rfl

theorem imgScan_mem (s : List Char) : ∀ pos skip m, m ∈ imgScanGo s pos skip →
    pos + skip ≤ m.1 ∧ m.1 < pos + s.length := by
  induction s with
  | nil => intro pos skip m hm; simp [imgScanGo] at hm
  | cons c rest ih =>
    intro pos skip m hm
    match skip, hm with
    | Nat.succ k, hm =>
      have := ih (pos + 1) k m (by simpa [imgScanGo] using hm)
      simp only [List.length_cons]
      omega
    | 0, hm =>
      rw [imgScanGo] at hm
      rcases hmt : matchImageFull (c :: rest) with - | q
      · rw [hmt] at hm
        have := ih (pos + 1) 0 m hm
        simp only [List.length_cons]
        omega
      · rw [hmt] at hm
        dsimp only at hm
        rcases List.mem_cons.mp hm with h1 | h1
        · subst h1
          simp
        · have := ih (pos + 1) (q.1 - 1) m h1
          simp only [List.length_cons]
          omega

theorem imgScan_chain (s : List Char) : ∀ pos skip,
    List.Chain' (fun m m2 => m.1 + m.2.1 ≤ m2.1) (imgScanGo s pos skip) := by
  induction s with
  | nil => intro pos skip; simp [imgScanGo]
  | cons c rest ih =>
    intro pos skip
    match skip with
    | Nat.succ k =>
      rw [imgScanGo]
      exact ih (pos + 1) k
    | 0 =>
      rw [imgScanGo]
      rcases hmt : matchImageFull (c :: rest) with - | q
      · exact ih (pos + 1) 0
      · dsimp only
        rw [List.chain'_cons']
        refine ⟨?_, ih (pos + 1) (q.1 - 1)⟩
        intro y hy
        have hmem : y ∈ imgScanGo rest (pos + 1) (q.1 - 1) := by
          rcases hh : imgScanGo rest (pos + 1) (q.1 - 1) with - | ⟨z, zs⟩
          · rw [hh] at hy; simp at hy
          · rw [hh] at hy
            simp at hy
            subst hy
            exact List.mem_cons_self _ _
        have := (imgScan_mem rest (pos + 1) (q.1 - 1) y hmem).1
        show pos + q.1 ≤ y.1
        omega

theorem chainStep_all (m : Nat × Nat × List Char × List Char)
    (rest : List (Nat × Nat × List Char × List Char))
    (h : List.Chain' (fun a b => a.1 + a.2.1 ≤ b.1) (m :: rest)) :
    ∀ m2 ∈ rest, m.1 + m.2.1 ≤ m2.1 := by
  induction rest generalizing m with
  | nil => intro m2 hm2; simp at hm2
  | cons z zs ih =>
    intro m2 hm2
    obtain ⟨hhd, htl⟩ := List.chain'_cons'.mp h
    have hz : m.1 + m.2.1 ≤ z.1 := hhd z (by simp)
    rcases List.mem_cons.mp hm2 with h1 | h1
    · subst h1; exact hz
    · have := ih z htl m2 h1
      omega

theorem textFrags_nondec (t : List Char) (off : Nat) :
    nondecB ((textFrags t off).map fragOffset) = true := by
  refine nondecB_of_const _ off fun x hx => ?_
  obtain ⟨fr, hfr, hfx⟩ := List.mem_map.mp hx
  rw [← hfx]
  exact textFrags_offset _ _ fr hfr

theorem extractGo_spec (content : List Char) (segStart : Nat) :
    ∀ (ms : List (Nat × Nat × List Char × List Char)) (lastIndex : Nat),
    (∀ m ∈ ms, lastIndex ≤ m.1 ∧ m.1 < content.length) →
    List.Chain' (fun a b => a.1 + a.2.1 ≤ b.1) ms →
    nondecB ((extractGo content segStart ms lastIndex).map fragOffset) = true ∧
    ∀ fr ∈ extractGo content segStart ms lastIndex,
      segStart + lastIndex ≤ fragOffset fr ∧
      fragOffset fr < segStart + content.length := by
  intro ms
  induction ms with
  | nil =>
    intro lastIndex hmem hchain
    rw [extractGo]
    by_cases hlt : lastIndex < content.length
    · rw [if_pos hlt]
      refine ⟨textFrags_nondec _ _, ?_⟩
      intro fr hfr
      have := textFrags_offset _ _ fr hfr
      rw [this]
      exact ⟨le_refl _, by omega⟩
    · rw [if_neg hlt]
      exact ⟨rfl, by simp⟩
  | cons m rest ih =>
    intro lastIndex hmem hchain
    obtain ⟨hm1, hm2⟩ := hmem m (List.mem_cons_self _ _)
    have hrestmem := chainStep_all m rest hchain
    have hrestbound : ∀ m2 ∈ rest, m.1 + m.2.1 ≤ m2.1 ∧ m2.1 < content.length :=
      fun m2 h2 => ⟨hrestmem m2 h2, (hmem m2 (List.mem_cons_of_mem _ h2)).2⟩
    have hchtl := (List.chain'_cons'.mp hchain).2
    obtain ⟨ihnd, ihmem⟩ := ih (m.1 + m.2.1) hrestbound hchtl
    rw [extractGo]
    constructor
    · rw [List.map_append, List.map_cons]
      refine nondecB_append_cons _ _ _ ?_ ?_ ?_
      · split
        · exact textFrags_nondec _ _
        · rfl
      · intro a ha
        split at ha
        · obtain ⟨fr, hfr, hfx⟩ := List.mem_map.mp ha
          rw [← hfx, textFrags_offset _ _ fr hfr]
          show segStart + lastIndex ≤ segStart + m.1
          omega
        · simp at ha
      · refine nondecB_cons_of_all _ _ ihnd ?_
        intro x hx
        obtain ⟨fr, hfr, hfx⟩ := List.mem_map.mp hx
        have := (ihmem fr hfr).1
        show segStart + m.1 ≤ x
        omega
    · intro fr hfr
      rcases List.mem_append.mp hfr with h1 | h1
      · split at h1
        · have := textFrags_offset _ _ fr h1
          rw [this]
          rename_i hlt
          constructor
          · exact le_refl _
          · omega
        · simp at h1
      · rcases List.mem_cons.mp h1 with h2 | h2
        · subst h2
          show segStart + lastIndex ≤ segStart + m.1 ∧ segStart + m.1 < segStart + content.length
          omega
        · have := ihmem fr h2
          omega

theorem extract_spec (seg : List Char) (segStart : Nat) :
    nondecB ((extractTextAndImages seg segStart).map fragOffset) = true ∧
    ∀ fr ∈ extractTextAndImages seg segStart,
      segStart ≤ fragOffset fr ∧ fragOffset fr < segStart + seg.length := by
  have h := extractGo_spec seg segStart (imgScanGo seg 0 0) 0
    (fun m hm => by
      have := imgScan_mem seg 0 0 m hm
      omega)
    (imgScan_chain seg 0 0)
  unfold extractTextAndImages
  exact ⟨h.1, fun fr hfr => by have := h.2 fr hfr; omega⟩

theorem extract_nil (segStart : Nat) : extractTextAndImages [] segStart = [] := rfl

theorem insSorted_mem {α : Type} (key : α → Nat) (x : α) (l : List α) (z : α)
    (h : z ∈ insSorted key x l) : z = x ∨ z ∈ l := by
  induction l with
  | nil => simpa [insSorted] using h
  | cons y ys ih =>
    rw [insSorted] at h
    split at h
    · rcases List.mem_cons.mp h with h1 | h1
      · right
        rw [h1]
        exact List.mem_cons_self _ _
      · rcases ih h1 with h2 | h2
        · left; exact h2
        · right; exact List.mem_cons_of_mem _ h2
    · rcases List.mem_cons.mp h with h1 | h1
      · left; exact h1
      · right; exact h1

theorem insSorted_sorted {α : Type} (key : α → Nat) (x : α) (l : List α)
    (h : List.Chain' (fun a b => key a ≤ key b) l) :
    List.Chain' (fun a b => key a ≤ key b) (insSorted key x l) := by
  induction l with
  | nil => simp [insSorted]
  | cons y ys ih =>
    obtain ⟨hhd, htl⟩ := List.chain'_cons'.mp h
    rw [insSorted]
    split
    · rename_i hxy
      rw [List.chain'_cons']
      refine ⟨?_, ih htl⟩
      intro z hz
      cases ys with
      | nil =>
        simp [insSorted] at hz
        subst hz
        exact hxy
      | cons w ws =>
        rw [insSorted] at hz
        split at hz
        · simp at hz
          subst hz
          exact hhd w (by simp)
        · simp at hz
          subst hz
          exact hxy
    · rename_i hxy
      rw [List.chain'_cons']
      refine ⟨?_, h⟩
      intro z hz
      simp at hz
      subst hz
      omega

theorem foldl_ins_mem {α : Type} (key : α → Nat) (l : List α) :
    ∀ (acc : List α) (z : α),
    z ∈ l.foldl (fun a x => insSorted key x a) acc → z ∈ acc ∨ z ∈ l := by
  induction l with
  | nil =>
    intro acc z h
    left
    simpa using h
  | cons x xs ih =>
    intro acc z h
    rw [List.foldl_cons] at h
    rcases ih (insSorted key x acc) z h with h1 | h1
    · rcases insSorted_mem key x acc z h1 with h2 | h2
      · right
        rw [h2]
        exact List.mem_cons_self _ _
      · left; exact h2
    · right; exact List.mem_cons_of_mem _ h1

theorem foldl_ins_sorted {α : Type} (key : α → Nat) (l : List α) :
    ∀ (acc : List α), List.Chain' (fun a b => key a ≤ key b) acc →
    List.Chain' (fun a b => key a ≤ key b)
      (l.foldl (fun a x => insSorted key x a) acc) := by
  induction l with
  | nil => intro acc hacc; simpa using hacc
  | cons x xs ih =>
    intro acc hacc
    rw [List.foldl_cons]
    exact ih (insSorted key x acc) (insSorted_sorted key x acc hacc)

theorem stableSortKey_mem {α : Type} (key : α → Nat) (l : List α) (z : α)
    (h : z ∈ stableSortKey key l) : z ∈ l := by
  rcases foldl_ins_mem key l [] z h with h1 | h1
  · simp at h1
  · exact h1

theorem stableSortKey_sorted {α : Type} (key : α → Nat) (l : List α) :
    List.Chain' (fun a b => key a ≤ key b) (stableSortKey key l) :=
  foldl_ins_sorted key l [] (by simp)

theorem chainKey_all {α : Type} (key : α → Nat) (i : α) (rest : List α)
    (h : List.Chain' (fun a b => key a ≤ key b) (i :: rest)) :
    ∀ j ∈ rest, key i ≤ key j := by
  induction rest generalizing i with
  | nil => intro j hj; simp at hj
  | cons z zs ih =>
    intro j hj
    obtain ⟨hhd, htl⟩ := List.chain'_cons'.mp h
    have hz : key i ≤ key z := hhd z (by simp)
    rcases List.mem_cons.mp hj with h1 | h1
    · rw [h1]; exact hz
    · have := ih z htl j h1
      omega

theorem firstNlFrom_ge (content : List Char) (rs e : Nat)
    (h : firstNlFrom content rs = some e) : rs ≤ e := by
  unfold firstNlFrom at h
  rcases hf : findIdxQ (fun c => c = '\n') (content.drop rs) with - | k
  · rw [hf] at h; simp at h
  · rw [hf] at h
    injection h with h
    omega

theorem sliceL_length (s : List Char) (a b : Nat) :
    (sliceL s a b).length = min b s.length - a := by
  simp [sliceL]
  omega

theorem extract_len0 (seg : List Char) (st : Nat) (h : seg.length = 0) :
    extractTextAndImages seg st = [] := by
  rw [List.length_eq_zero] at h
  rw [h]
  rfl

theorem findHeadingLineEnd_prop (content : List Char) (rs : Nat) :
    rs ≤ findHeadingLineEnd content rs ∨
    content.length ≤ findHeadingLineEnd content rs := by
  unfold findHeadingLineEnd
  rcases hf : firstNlFrom content rs with - | e
  · right
    exact le_refl _
  · left
    dsimp only
    have := firstNlFrom_ge content rs e hf
    omega

theorem preGlue (content : List Char) (base cursor prev o : Nat)
    (fr : ContentFragment) (B : List ContentFragment)
    (hfr : fragOffset fr = o)
    (ho : base ≤ o) (hpo : prev ≤ o)
    (hdisj : prev ≤ base + cursor ∨ content.length ≤ cursor)
    (hrest : nondecB (o :: B.map fragOffset) = true) :
    nondecB (prev :: ((if cursor < o - base then
        extractTextAndImages (sliceL content cursor (o - base)) (base + cursor)
      else []) ++ fr :: B).map fragOffset) = true := by
  rw [List.map_append, List.map_cons, hfr]
  show nondecB ((prev :: ((if cursor < o - base then
      extractTextAndImages (sliceL content cursor (o - base)) (base + cursor)
    else []) : List ContentFragment).map fragOffset) ++ o :: B.map fragOffset) = true
  refine nondecB_append_cons _ o _ ?_ ?_ hrest
  · by_cases hc : cursor < o - base
    · rw [if_pos hc]
      rcases hdisj with hd | hd
      · obtain ⟨hnd, hmem⟩ := extract_spec (sliceL content cursor (o - base)) (base + cursor)
        refine nondecB_cons_of_all _ _ hnd ?_
        intro x hx
        obtain ⟨fr2, hfr2, hfx⟩ := List.mem_map.mp hx
        have := (hmem fr2 hfr2).1
        omega
      · rw [extract_len0 _ _ (by rw [sliceL_length]; omega)]
        rfl
    · rw [if_neg hc]
      rfl
  · intro a ha
    rcases List.mem_cons.mp ha with h1 | h1
    · rw [h1]
      exact hpo
    · by_cases hc : cursor < o - base
      · rw [if_pos hc] at h1
        obtain ⟨fr2, hfr2, hfx⟩ := List.mem_map.mp h1
        have h2 := (extract_spec (sliceL content cursor (o - base)) (base + cursor)).2 fr2 hfr2
        rw [sliceL_length] at h2
        rcases hdisj with hd | hd
        · rw [← hfx]
          omega
        · rw [← hfx]
          omega
      · rw [if_neg hc] at h1
        simp at h1

theorem tcLoop_spec (content : List Char) (base : Nat) :
    ∀ (items : List (Sum DocumentHeading DocumentFlag)) (cursor prev : Nat),
    (∀ i ∈ items, base ≤ itemOffset i) →
    List.Chain' (fun a b => itemOffset a ≤ itemOffset b) items →
    (∀ i ∈ items, prev ≤ itemOffset i) →
    (prev ≤ base + cursor ∨ content.length ≤ cursor) →
    nondecB (prev :: (tcLoop content base items cursor).map fragOffset) = true := by
  intro items
  induction items with
  | nil =>
    intro cursor prev hbase hchain hprev hdisj
    rw [tcLoop]
    by_cases hlt : cursor < content.length
    · rw [if_pos hlt]
      have hd : prev ≤ base + cursor := by
        rcases hdisj with hd | hd
        · exact hd
        · omega
      obtain ⟨hnd, hmem⟩ := extract_spec (sliceL content cursor content.length) (base + cursor)
      refine nondecB_cons_of_all _ _ hnd ?_
      intro x hx
      obtain ⟨fr, hfr, hfx⟩ := List.mem_map.mp hx
      have := (hmem fr hfr).1
      omega
    · rw [if_neg hlt]
      rfl
  | cons item rest ih =>
    intro cursor prev hbase hchain hprev hdisj
    have ho : base ≤ itemOffset item := hbase item (List.mem_cons_self _ _)
    have hpo : prev ≤ itemOffset item := hprev item (List.mem_cons_self _ _)
    have hbr : ∀ i ∈ rest, base ≤ itemOffset i :=
      fun i hi => hbase i (List.mem_cons_of_mem _ hi)
    have hcr := (List.chain'_cons'.mp hchain).2
    have hor : ∀ i ∈ rest, itemOffset item ≤ itemOffset i :=
      chainKey_all itemOffset item rest hchain
    rcases item with h | f
    · rw [tcLoop]
      have hrest := ih (findHeadingLineEnd content (h.startOffset - base))
        h.startOffset hbr hcr hor
        (by
          rcases findHeadingLineEnd_prop content (h.startOffset - base) with hp | hp
          · left
            have : base ≤ h.startOffset := ho
            omega
          · right
            exact hp)
      exact preGlue content base cursor prev h.startOffset
        (ContentFragment.heading h) _ rfl ho hpo hdisj hrest
    · rw [tcLoop]
      have hrest := ih (f.startOffset - base + flagAdvance (content.drop (f.startOffset - base)))
        f.startOffset hbr hcr hor
        (by
          left
          have : base ≤ f.startOffset := ho
          omega)
      exact preGlue content base cursor prev f.startOffset
        (ContentFragment.flag f) _ rfl ho hpo hdisj hrest

/-- Claim C2 as stated: the fragment stream accounts for the page's
characters (hence a page with content emits at least one unit) and the
fragments' start offsets are non-decreasing. -/
def C2Claim (page : DocumentPage) : Prop :=
  (page.content ≠ [] → tokenizeContent page ≠ []) ∧
  nondecB ((tokenizeContent page).map fragOffset) = true

instance (page : DocumentPage) : Decidable (C2Claim page) := by
  unfold C2Claim
  infer_instance

/-- C2 counterexample: a whitespace-only page with no headings and no flags
emits no fragment at all — `pushTextLines` silently drops whitespace-only
text — so its characters are not accounted for by any emitted unit. -/
theorem C2_counterexample :
    ¬ C2Claim ⟨" \n ".data, 0, 0, 3, 0, none, none⟩ := by decide

/-- C2 amended: characters can be dropped (whitespace-only pieces, trimming
and sanitizing inside text lines), but for every page whose heading and flag
offsets lie at or past the page's own start offset, the emitted fragments'
start offsets are non-decreasing. -/
theorem C2_amended (page : DocumentPage)
    (hh : ∀ h ∈ page.headings.getD [], page.startOffset ≤ h.startOffset)
    (hf : ∀ f ∈ page.flags.getD [], page.startOffset ≤ f.startOffset) :
    nondecB ((tokenizeContent page).map fragOffset) = true := by
  unfold tokenizeContent
  dsimp only
  have hbase : ∀ i ∈ stableSortKey itemOffset
      (((stableSortKey (fun h => h.startOffset) (page.headings.getD [])).map Sum.inl) ++
       ((stableSortKey (fun f => f.startOffset) (page.flags.getD [])).map Sum.inr)),
      page.startOffset ≤ itemOffset i := by
    intro i hi
    have hi2 := stableSortKey_mem _ _ _ hi
    rcases List.mem_append.mp hi2 with h1 | h1
    · obtain ⟨h0, hh0, hieq⟩ := List.mem_map.mp h1
      rw [← hieq]
      exact hh h0 (stableSortKey_mem _ _ _ hh0)
    · obtain ⟨f0, hf0, hieq⟩ := List.mem_map.mp h1
      rw [← hieq]
      exact hf f0 (stableSortKey_mem _ _ _ hf0)
  have := tcLoop_spec page.content page.startOffset
    (stableSortKey itemOffset
      (((stableSortKey (fun h => h.startOffset) (page.headings.getD [])).map Sum.inl) ++
       ((stableSortKey (fun f => f.startOffset) (page.flags.getD [])).map Sum.inr)))
    0 0 hbase (stableSortKey_sorted _ _) (fun i _ => Nat.zero_le _)
    (Or.inl (Nat.zero_le _))
  exact nondecB_tail _ _ this

/-- C2 witness: a page with one heading, one flag, text and a word after the
flag. -/
theorem C2_amended_witness :
    (∀ h ∈ (⟨"# H\nbody ==TODO: x== tail".data, 2, 0, 25, 0,
      some [⟨1, "H".data, 0, none⟩],
      some [⟨"TODO".data, "x".data, 9, "#ffd700".data, "b".data⟩]⟩ : DocumentPage).headings.getD [],
      (⟨"# H\nbody ==TODO: x== tail".data, 2, 0, 25, 0,
      some [⟨1, "H".data, 0, none⟩],
      some [⟨"TODO".data, "x".data, 9, "#ffd700".data, "b".data⟩]⟩ : DocumentPage).startOffset ≤ h.startOffset) ∧
    (∀ f ∈ (⟨"# H\nbody ==TODO: x== tail".data, 2, 0, 25, 0,
      some [⟨1, "H".data, 0, none⟩],
      some [⟨"TODO".data, "x".data, 9, "#ffd700".data, "b".data⟩]⟩ : DocumentPage).flags.getD [],
      (⟨"# H\nbody ==TODO: x== tail".data, 2, 0, 25, 0,
      some [⟨1, "H".data, 0, none⟩],
      some [⟨"TODO".data, "x".data, 9, "#ffd700".data, "b".data⟩]⟩ : DocumentPage).startOffset ≤ f.startOffset) ∧
    nondecB ((tokenizeContent (⟨"# H\nbody ==TODO: x== tail".data, 2, 0, 25, 0,
      some [⟨1, "H".data, 0, none⟩],
      some [⟨"TODO".data, "x".data, 9, "#ffd700".data, "b".data⟩]⟩ : DocumentPage)).map fragOffset) = true :=
  ⟨by decide, by decide, C2_amended (⟨"# H\nbody ==TODO: x== tail".data, 2, 0, 25, 0,
      some [⟨1, "H".data, 0, none⟩],
      some [⟨"TODO".data, "x".data, 9, "#ffd700".data, "b".data⟩]⟩ : DocumentPage) (by decide) (by decide)⟩

end LongView
